import Mathlib

/-!
Verification of the `dt` repository's two containers against its
natural-language specification.

The embedding follows the Rust sources:
* `src/containers/linked_hash_map.rs` — a chaining hash table
  (`LinkedHashMap`) whose buckets are vectors of key/value pairs.
* `src/containers/doubly_linked_list.rs` — a doubly linked list with raw
  pointers, embedded here with an explicit heap of nodes addressed by
  natural numbers.

Machine integers (`usize`, `u64`) are embedded as `Nat`; the places where
the Rust code can fault (remainder by zero, a `todo!()` body, a deref of a
dangling pointer) return `Except Fault` results.  Key comparison is a
parameter `keyEq : K → K → Bool` (Rust `PartialEq::eq`, which may identify
keys that are not identical) and the hash is a parameter `hash : K → Nat`
(the map stores one `BuildHasher`, so hashing is a fixed function during
the map's lifetime).
-/

namespace Dt

/-- The ways an embedded operation can fault (Rust panic / UB). -/
inductive Fault where
  /-- Rust's integer remainder by zero panic, from `hash % 0`. -/
  | remainderZero
  /-- A `todo!()` body or an out-of-range `split_off` index. -/
  | outOfRange
  /-- A dereference of an address that does not hold a live node. -/
  | invalidDeref
  deriving DecidableEq, Repr

/-! ## The hash map (`src/containers/linked_hash_map.rs`) -/

/-- Embedding of `LinkedHashMap<K, V, S>`: the bucket array (`Vec<Bucket<K,V>>`,
each bucket a `Vec<(K, V)>`) and the entry counter.  The `build_hasher` field
is represented by the ambient `hash` parameter, fixed per development. -/
structure LinkedHashMap (K V : Type) where
  buckets : List (List (K × V))
  entriesCount : Nat
  deriving DecidableEq, Repr

variable {K V : Type}

/-- Embedding of `LinkedHashMap::key_to_idx`: `hash % n_buckets`, where the
Rust remainder by zero panics; `none` is that fault. -/
def keyToIdx (hk n : Nat) : Option Nat :=
  if n = 0 then none else some (hk % n)

/-- Embedding of `LinkedHashMap::new` / `Default::default`: no buckets, zero
entries. -/
def LinkedHashMap.new : LinkedHashMap K V :=
  ⟨[], 0⟩

/-- Embedding of `LinkedHashMap::len`. -/
def LinkedHashMap.len (m : LinkedHashMap K V) : Nat :=
  m.entriesCount

/-- Embedding of `LinkedHashMap::is_empty`. -/
def LinkedHashMap.isEmpty (m : LinkedHashMap K V) : Bool :=
  m.entriesCount == 0

/-- Embedding of `LinkedHashMap::get`: index by `hash(key) % buckets.len()`
(faulting when there are no buckets), then scan the bucket for the first
entry whose key equals `key`. -/
def LinkedHashMap.get (keyEq : K → K → Bool) (hash : K → Nat)
    (m : LinkedHashMap K V) (k : K) : Except Fault (Option V) :=
  match keyToIdx (hash k) m.buckets.length with
  | none => .error .remainderZero
  | some idx =>
      .ok (((m.buckets.getD idx []).find? fun e => keyEq e.1 k).map Prod.snd)

/-- Embedding of `LinkedHashMap::contains_key`. -/
def LinkedHashMap.containsKey (keyEq : K → K → Bool) (hash : K → Nat)
    (m : LinkedHashMap K V) (k : K) : Except Fault Bool :=
  match keyToIdx (hash k) m.buckets.length with
  | some idx =>
      .ok ((m.buckets.getD idx []).find? fun e => keyEq e.1 k).isSome
  | none => .error .remainderZero

/-- Embedding of `Vec::swap_remove`: replace the element at `i` with the last
element and drop the last slot. -/
def swapRemove {α : Type} (l : List α) (i : Nat) : List α :=
  match l.getLast? with
  | none => l
  | some last => (l.set i last).dropLast

/-- Embedding of `LinkedHashMap::remove`: index the bucket (faulting when the
bucket array is empty), find the position of the matching entry, and if one
exists `swap_remove` it and decrement the entry counter; otherwise the `?`
operator returns `None` leaving the map untouched. -/
def LinkedHashMap.remove (keyEq : K → K → Bool) (hash : K → Nat)
    (m : LinkedHashMap K V) (k : K) :
    Except Fault (Option V × LinkedHashMap K V) :=
  match keyToIdx (hash k) m.buckets.length with
  | none => .error .remainderZero
  | some idx =>
      let bucket := m.buckets.getD idx []
      match bucket.findIdx? (fun e => keyEq e.1 k) with
      | none => .ok (none, m)
      | some i =>
          .ok (bucket[i]?.map Prod.snd,
               ⟨m.buckets.set idx (swapRemove bucket i), m.entriesCount - 1⟩)

/-- Embedding of the bucket scan inside `LinkedHashMap::insert`: walk the
bucket; on the first entry whose key equals `k`, replace its value (keeping
the stored key) and report the old value; if no entry matches, push `(k, v)`
at the end. -/
def bucketUpsert (keyEq : K → K → Bool) (k : K) (v : V) :
    List (K × V) → Option V × List (K × V)
  | [] => (none, [(k, v)])
  | e :: rest =>
      if keyEq e.1 k then (some e.2, (e.1, v) :: rest)
      else
        let r := bucketUpsert keyEq k v rest
        (r.1, e :: r.2)

/-- One step of the rehash loop in `LinkedHashMap::grow`: push the entry onto
the bucket at `hash(key) % target_size`. -/
def placeEntry (hash : K → Nat) (n : Nat) (bs : List (List (K × V)))
    (e : K × V) : List (List (K × V)) :=
  bs.set (hash e.1 % n) (bs.getD (hash e.1 % n) [] ++ [e])

/-- Embedding of `LinkedHashMap::grow`: target size is 1 from 0 buckets, else
double; allocate `target_size` fresh buckets and re-place every existing
entry (in bucket-then-position order, as `flat_map` drains them) by its hash
modulo the new size.  The entry counter is untouched. -/
def LinkedHashMap.grow (hash : K → Nat) (m : LinkedHashMap K V) :
    LinkedHashMap K V :=
  let targetSize :=
    match m.buckets.length with
    | 0 => 1
    | n => 2 * n
  ⟨m.buckets.flatten.foldl (placeEntry hash targetSize)
      (List.replicate targetSize []),
   m.entriesCount⟩

/-- The growth trigger at the top of `LinkedHashMap::insert`:
`self.buckets.is_empty() || self.entries_count > 3 * self.buckets.len() / 4`. -/
def LinkedHashMap.growCond (m : LinkedHashMap K V) : Bool :=
  m.buckets.isEmpty || decide (3 * m.buckets.length / 4 < m.entriesCount)

/-- Embedding of `LinkedHashMap::insert`: grow first when the trigger fires,
index the bucket, scan it with `bucketUpsert`; the entry counter grows by one
exactly when no matching key was found. -/
def LinkedHashMap.insert (keyEq : K → K → Bool) (hash : K → Nat)
    (m : LinkedHashMap K V) (k : K) (v : V) :
    Except Fault (Option V × LinkedHashMap K V) :=
  let m1 := if m.growCond then m.grow hash else m
  match keyToIdx (hash k) m1.buckets.length with
  | none => .error .remainderZero
  | some idx =>
      let r := bucketUpsert keyEq k v (m1.buckets.getD idx [])
      match r.1 with
      | some v0 => .ok (some v0, ⟨m1.buckets.set idx r.2, m1.entriesCount⟩)
      | none => .ok (none, ⟨m1.buckets.set idx r.2, m1.entriesCount + 1⟩)

/-! ### First facts about the map embedding -/

/-- A key counts as present when some bucket holds an entry whose stored key
equals it under `keyEq`. -/
def LinkedHashMap.HasKey (keyEq : K → K → Bool) (m : LinkedHashMap K V)
    (k : K) : Prop :=
  ∃ b ∈ m.buckets, ∃ e ∈ b, keyEq e.1 k = true

instance (keyEq : K → K → Bool) (m : LinkedHashMap K V) (k : K) :
    Decidable (m.HasKey keyEq k) := by
  unfold LinkedHashMap.HasKey
  infer_instance

/-- C3: on a map into which nothing has ever been inserted the bucket array is
empty, so `get`, `contains_key` and `remove` all reach `hash % 0` and fault
with a remainder-by-zero panic instead of returning the "no value" outcome
the spec promises. -/
theorem c3_fresh_map_queries_fault (keyEq : K → K → Bool) (hash : K → Nat)
    (k : K) :
    LinkedHashMap.get keyEq hash (LinkedHashMap.new : LinkedHashMap K V) k
        = .error .remainderZero ∧
    LinkedHashMap.containsKey keyEq hash (LinkedHashMap.new : LinkedHashMap K V) k
        = .error .remainderZero ∧
    LinkedHashMap.remove keyEq hash (LinkedHashMap.new : LinkedHashMap K V) k
        = .error .remainderZero := by
  refine ⟨rfl, rfl, rfl⟩

/-- C10: removing a key that is nowhere in a map whose bucket array is
non-empty returns `none` and hands back the exact same map state. -/
theorem c10_remove_absent_key_is_noop (keyEq : K → K → Bool) (hash : K → Nat)
    (m : LinkedHashMap K V) (k : K)
    (hne : m.buckets.length ≠ 0)
    (habs : ∀ b ∈ m.buckets, ∀ e ∈ b, keyEq e.1 k = false) :
    LinkedHashMap.remove keyEq hash m k = .ok (none, m) := by
  have hidx : keyToIdx (hash k) m.buckets.length
      = some (hash k % m.buckets.length) := by
    simp [keyToIdx, hne]
  have hlt : hash k % m.buckets.length < m.buckets.length :=
    Nat.mod_lt _ (Nat.pos_of_ne_zero hne)
  have hbmem : m.buckets.getD (hash k % m.buckets.length) [] ∈ m.buckets := by
    rw [List.getD_eq_getElem?_getD, List.getElem?_eq_getElem hlt]
    exact List.getElem_mem hlt
  have hfind : (m.buckets.getD (hash k % m.buckets.length) []).findIdx?
      (fun e => keyEq e.1 k) = none := by
    rw [List.findIdx?_eq_none_iff]
    intro e he
    simpa using habs _ hbmem e he
  rw [List.getD_eq_getElem?_getD] at hfind
  simp [LinkedHashMap.remove, hidx, hfind]

/-! ### List helpers: `swap_remove` and flattening a bucket update -/

theorem getLast_cons_dropLast_perm {α : Type} (l : List α) (h : l ≠ []) :
    (l.getLast h :: l.dropLast).Perm l := by
  conv_rhs => rw [← List.dropLast_concat_getLast h]
  exact (List.perm_append_singleton _ _).symm

theorem swapRemove_perm {α : Type} :
    ∀ (l : List α) (i : Nat), i < l.length → (swapRemove l i).Perm (l.eraseIdx i)
  | [], i, h => by simp at h
  | [a], i, h => by
      cases i with
      | zero => simp [swapRemove]
      | succ j => simp at h
  | a :: b :: t, 0, h => by
      have hlast : (a :: b :: t).getLast? =
          some ((b :: t).getLast (List.cons_ne_nil _ _)) := by
        rw [List.getLast?_cons_cons]
        exact List.getLast?_eq_getLast _ _
      simp only [swapRemove, hlast, List.set_cons_zero, List.eraseIdx_cons_zero]
      rw [List.dropLast_cons_of_ne_nil (List.cons_ne_nil _ _)]
      exact getLast_cons_dropLast_perm _ _
  | a :: b :: t, i + 1, h => by
      have hlast : (a :: b :: t).getLast? = (b :: t).getLast? :=
        List.getLast?_cons_cons
      have hi : i < (b :: t).length := by
        simpa [Nat.succ_lt_succ_iff] using h
      have ih := swapRemove_perm (b :: t) i hi
      simp only [swapRemove, hlast] at ih ⊢
      cases hl : (b :: t).getLast? with
      | none => simp at hl
      | some last =>
          rw [hl] at ih
          simp only [List.set_cons_succ, List.eraseIdx_cons_succ]
          have hset : (b :: t).set i last ≠ [] := by
            intro hc
            have := congrArg List.length hc
            simp at this
          rw [List.dropLast_cons_of_ne_nil hset]
          exact (ih.cons a)

theorem length_swapRemove {α : Type} (l : List α) (i : Nat) (h : i < l.length) :
    (swapRemove l i).length = l.length - 1 := by
  rw [(swapRemove_perm l i h).length_eq, List.length_eraseIdx_of_lt h]

/-- Pulling the middle list of an append to the front is a permutation. -/
theorem perm_middle_append {α : Type} (t m d : List α) :
    (t ++ (m ++ d)).Perm (m ++ (t ++ d)) := by
  have h1 : t ++ (m ++ d) = (t ++ m) ++ d := by rw [List.append_assoc]
  have h3 : (m ++ t) ++ d = m ++ (t ++ d) := by rw [List.append_assoc]
  rw [h1, ← h3]
  exact (List.perm_append_comm).append_right d

theorem flatten_eq_getElem_append {α : Type} (bs : List (List α)) (i : Nat)
    (h : i < bs.length) :
    bs.flatten.Perm (bs[i] ++ (bs.eraseIdx i).flatten) := by
  conv_lhs => rw [← List.take_append_drop i bs, List.drop_eq_getElem_cons h]
  rw [List.eraseIdx_eq_take_drop_succ]
  simp only [List.flatten_append, List.flatten_cons]
  exact perm_middle_append _ _ _

theorem flatten_set_perm {α : Type} (bs : List (List α)) (i : Nat) (b : List α)
    (h : i < bs.length) :
    (bs.set i b).flatten.Perm (b ++ (bs.eraseIdx i).flatten) := by
  rw [List.set_eq_take_cons_drop _ h, List.eraseIdx_eq_take_drop_succ]
  simp only [List.flatten_append, List.flatten_cons]
  exact perm_middle_append _ _ _

theorem getD_set_self {α : Type} (bs : List α) (i : Nat) (b d : α)
    (h : i < bs.length) : (bs.set i b).getD i d = b := by
  rw [List.getD_eq_getElem?_getD, List.getElem?_set_self h]
  rfl

theorem getD_set_ne {α : Type} (bs : List α) (i j : Nat) (b d : α)
    (h : i ≠ j) : (bs.set i b).getD j d = bs.getD j d := by
  rw [List.getD_eq_getElem?_getD, List.getElem?_set_ne h,
    ← List.getD_eq_getElem?_getD]

theorem flatten_replicate_nil {α : Type} :
    ∀ n : Nat, (List.replicate n ([] : List α)).flatten = []
  | 0 => rfl
  | n + 1 => by simp [List.replicate_succ, flatten_replicate_nil n]

/-! ### Facts about `grow` -/

variable {K V : Type}

theorem length_foldl_placeEntry (hash : K → Nat) (n : Nat) :
    ∀ (es : List (K × V)) (bs : List (List (K × V))),
      (es.foldl (placeEntry hash n) bs).length = bs.length
  | [], _ => rfl
  | e :: rest, bs => by
      rw [List.foldl_cons, length_foldl_placeEntry hash n rest]
      simp [placeEntry]

theorem flatten_foldl_placeEntry_perm (hash : K → Nat) (n : Nat) (hn : n ≠ 0) :
    ∀ (es : List (K × V)) (bs : List (List (K × V))), bs.length = n →
      (es.foldl (placeEntry hash n) bs).flatten.Perm (bs.flatten ++ es)
  | [], bs, _ => by simp
  | e :: rest, bs, hlen => by
      rw [List.foldl_cons]
      have hi : hash e.1 % n < bs.length := by
        rw [hlen]; exact Nat.mod_lt _ (Nat.pos_of_ne_zero hn)
      have hlen' : (placeEntry hash n bs e).length = n := by
        simpa [placeEntry] using hlen
      have ih := flatten_foldl_placeEntry_perm hash n hn rest
        (placeEntry hash n bs e) hlen'
      have hstep : (placeEntry hash n bs e).flatten.Perm (bs.flatten ++ [e]) := by
        unfold placeEntry
        have hgetD : bs.getD (hash e.1 % n) [] = bs[hash e.1 % n] := by
          rw [List.getD_eq_getElem?_getD, List.getElem?_eq_getElem hi]
          rfl
        refine (flatten_set_perm _ _ _ hi).trans ?_
        rw [hgetD]
        have h1 : ((bs[hash e.1 % n] ++ [e])
              ++ (bs.eraseIdx (hash e.1 % n)).flatten).Perm
            ((bs[hash e.1 % n] ++ (bs.eraseIdx (hash e.1 % n)).flatten) ++ [e]) := by
          rw [List.append_assoc, List.append_assoc]
          exact (List.perm_append_comm).append_left _
        exact h1.trans
          (((flatten_eq_getElem_append bs _ hi).symm).append_right [e])
      have hfin := ih.trans (hstep.append_right rest)
      simpa using hfin


theorem getD_replicate_nil {α : Type} (n i : Nat) :
    (List.replicate n ([] : List α)).getD i [] = [] := by
  rw [List.getD_eq_getElem?_getD, List.getElem?_replicate]
  split <;> rfl

theorem grow_buckets_length (hash : K → Nat) (m : LinkedHashMap K V) :
    (m.grow hash).buckets.length =
      if m.buckets.length = 0 then 1 else 2 * m.buckets.length := by
  cases h : m.buckets.length with
  | zero => simp [LinkedHashMap.grow, h, length_foldl_placeEntry]
  | succ n => simp [LinkedHashMap.grow, h, length_foldl_placeEntry]

theorem grow_length_pos (hash : K → Nat) (m : LinkedHashMap K V) :
    (m.grow hash).buckets.length ≠ 0 := by
  rw [grow_buckets_length]
  split <;> omega

theorem grow_flatten_perm (hash : K → Nat) (m : LinkedHashMap K V) :
    (m.grow hash).buckets.flatten.Perm m.buckets.flatten := by
  cases h : m.buckets.length with
  | zero =>
      have hb : m.buckets = [] := List.length_eq_zero.mp h
      simp [LinkedHashMap.grow, h, hb]
  | succ n =>
      have hperm := flatten_foldl_placeEntry_perm hash (2 * (n + 1)) (by omega)
        m.buckets.flatten (List.replicate (2 * (n + 1)) []) (by simp)
      rw [flatten_replicate_nil, List.nil_append] at hperm
      simpa [LinkedHashMap.grow, h] using hperm

theorem placed_foldl_placeEntry (hash : K → Nat) (n : Nat) (hn : n ≠ 0) :
    ∀ (es : List (K × V)) (bs : List (List (K × V))), bs.length = n →
      (∀ i, ∀ e ∈ bs.getD i [], hash e.1 % n = i) →
      ∀ i, ∀ e ∈ (es.foldl (placeEntry hash n) bs).getD i [], hash e.1 % n = i
  | [], _, _, hplaced => hplaced
  | e :: rest, bs, hlen, hplaced => by
      rw [List.foldl_cons]
      have hi : hash e.1 % n < bs.length := by
        rw [hlen]; exact Nat.mod_lt _ (Nat.pos_of_ne_zero hn)
      refine placed_foldl_placeEntry hash n hn rest _
        (by simpa [placeEntry] using hlen) ?_
      intro i e' he'
      by_cases hcase : i = hash e.1 % n
      · subst hcase
        rw [placeEntry, getD_set_self _ _ _ _ hi] at he'
        rcases List.mem_append.mp he' with h1 | h2
        · exact hplaced _ _ h1
        · have : e' = e := by simpa using h2
          rw [this]
      · rw [placeEntry, getD_set_ne _ _ _ _ _ (Ne.symm hcase)] at he'
        exact hplaced _ _ he'

theorem grow_placed (hash : K → Nat) (m : LinkedHashMap K V) :
    ∀ i, ∀ e ∈ (m.grow hash).buckets.getD i [],
      hash e.1 % (m.grow hash).buckets.length = i := by
  have hlen := grow_buckets_length hash m
  cases h : m.buckets.length with
  | zero =>
      rw [h] at hlen
      simp only [if_pos rfl] at hlen
      have := placed_foldl_placeEntry hash 1 (by omega) m.buckets.flatten
        (List.replicate 1 []) (by simp) (by intro i e he; simp [getD_replicate_nil] at he)
      intro i e he
      rw [hlen]
      refine this i e ?_
      simpa [LinkedHashMap.grow, h] using he
  | succ n =>
      rw [h] at hlen
      simp only [if_neg (Nat.succ_ne_zero n)] at hlen
      have := placed_foldl_placeEntry hash (2 * (n + 1)) (by omega) m.buckets.flatten
        (List.replicate (2 * (n + 1)) []) (by simp)
        (by intro i e he; simp [getD_replicate_nil] at he)
      intro i e he
      rw [hlen]
      refine this i e ?_
      simpa [LinkedHashMap.grow, h] using he

/-! ### Sequences of map operations -/

/-- A map operation: an insert or a remove. -/
inductive MapOp (K V : Type) where
  | ins (k : K) (v : V)
  | del (k : K)

/-- Apply one operation, keeping only the resulting map state. -/
def applyOp (keyEq : K → K → Bool) (hash : K → Nat) (m : LinkedHashMap K V) :
    MapOp K V → Except Fault (LinkedHashMap K V)
  | .ins k v => (LinkedHashMap.insert keyEq hash m k v).map Prod.snd
  | .del k => (LinkedHashMap.remove keyEq hash m k).map Prod.snd

/-- Run a list of operations left to right from a given state. -/
def runFrom (keyEq : K → K → Bool) (hash : K → Nat) :
    LinkedHashMap K V → List (MapOp K V) → Except Fault (LinkedHashMap K V)
  | m, [] => .ok m
  | m, op :: rest =>
      match applyOp keyEq hash m op with
      | .error e => .error e
      | .ok m' => runFrom keyEq hash m' rest

/-- Run a list of operations starting from the freshly created map. -/
def runOps (keyEq : K → K → Bool) (hash : K → Nat)
    (ops : List (MapOp K V)) : Except Fault (LinkedHashMap K V) :=
  runFrom keyEq hash LinkedHashMap.new ops

theorem insert_m1_length_pos (hash : K → Nat) (m : LinkedHashMap K V) :
    (if m.growCond then m.grow hash else m).buckets.length ≠ 0 := by
  by_cases h : m.growCond
  · simpa [h] using grow_length_pos hash m
  · have h' : ¬m.buckets = [] ∧ m.entriesCount ≤ 3 * m.buckets.length / 4 := by
      simpa [LinkedHashMap.growCond] using h
    rw [if_neg h]
    intro hc
    exact h'.1 (List.length_eq_zero.mp hc)

/-- Unfolding of `insert` once the grown bucket array is known non-empty. -/
theorem insert_eq (keyEq : K → K → Bool) (hash : K → Nat)
    (m : LinkedHashMap K V) (k : K) (v : V) :
    LinkedHashMap.insert keyEq hash m k v =
      (let m1 := if m.growCond then m.grow hash else m
       let idx := hash k % m1.buckets.length
       let r := bucketUpsert keyEq k v (m1.buckets.getD idx [])
       match r.1 with
       | some v0 => .ok (some v0, ⟨m1.buckets.set idx r.2, m1.entriesCount⟩)
       | none => .ok (none, ⟨m1.buckets.set idx r.2, m1.entriesCount + 1⟩)) := by
  have hpos := insert_m1_length_pos hash m
  unfold LinkedHashMap.insert
  simp only [keyToIdx, if_neg hpos]

theorem insert_result_length (keyEq : K → K → Bool) (hash : K → Nat)
    (m : LinkedHashMap K V) (k : K) (v : V) (p : Option V × LinkedHashMap K V)
    (h : LinkedHashMap.insert keyEq hash m k v = .ok p) :
    p.2.buckets.length = (if m.growCond then m.grow hash else m).buckets.length := by
  unfold LinkedHashMap.insert at h
  simp only [keyToIdx, if_neg (insert_m1_length_pos hash m)] at h
  split at h <;> injection h with h <;> rw [← h] <;> simp [List.length_set]

theorem remove_result_length (keyEq : K → K → Bool) (hash : K → Nat)
    (m : LinkedHashMap K V) (k : K) (p : Option V × LinkedHashMap K V)
    (h : LinkedHashMap.remove keyEq hash m k = .ok p) :
    p.2.buckets.length = m.buckets.length := by
  unfold LinkedHashMap.remove at h
  by_cases hz : m.buckets.length = 0
  · simp only [keyToIdx, if_pos hz] at h
    cases h
  · simp only [keyToIdx, if_neg hz] at h
    split at h <;> injection h with h <;> rw [← h] <;> simp [List.length_set]

theorem applyOp_pow2 (keyEq : K → K → Bool) (hash : K → Nat)
    (m m' : LinkedHashMap K V) (op : MapOp K V)
    (hp : m.buckets.length = 0 ∨ ∃ j, m.buckets.length = 2 ^ j)
    (h : applyOp keyEq hash m op = .ok m') :
    m'.buckets.length = 0 ∨ ∃ j, m'.buckets.length = 2 ^ j := by
  have hm1 : (if m.growCond then m.grow hash else m).buckets.length = 0 ∨
      ∃ j, (if m.growCond then m.grow hash else m).buckets.length = 2 ^ j := by
    by_cases hg : m.growCond
    · rw [if_pos hg, grow_buckets_length]
      by_cases hz : m.buckets.length = 0
      · rw [if_pos hz]; exact Or.inr ⟨0, rfl⟩
      · rcases hp with h0 | ⟨j, hj⟩
        · exact absurd h0 hz
        · rw [if_neg hz, hj]
          exact Or.inr ⟨j + 1, by ring⟩
    · rw [if_neg hg]; exact hp
  cases op with
  | ins k v =>
      simp only [applyOp] at h
      cases hi : LinkedHashMap.insert keyEq hash m k v with
      | error e => rw [hi] at h; simp [Except.map] at h
      | ok p =>
          rw [hi] at h
          simp only [Except.map] at h
          injection h with h
          rw [← h]
          rw [insert_result_length keyEq hash m k v p hi]
          exact hm1
  | del k =>
      simp only [applyOp] at h
      cases hi : LinkedHashMap.remove keyEq hash m k with
      | error e => rw [hi] at h; simp [Except.map] at h
      | ok p =>
          rw [hi] at h
          simp only [Except.map] at h
          injection h with h
          rw [← h]
          rw [remove_result_length keyEq hash m k p hi]
          exact hp

theorem runFrom_pow2 (keyEq : K → K → Bool) (hash : K → Nat) :
    ∀ (ops : List (MapOp K V)) (m m' : LinkedHashMap K V),
      (m.buckets.length = 0 ∨ ∃ j, m.buckets.length = 2 ^ j) →
      runFrom keyEq hash m ops = .ok m' →
      m'.buckets.length = 0 ∨ ∃ j, m'.buckets.length = 2 ^ j
  | [], m, m', hp, h => by
      simp only [runFrom] at h
      injection h with h
      rw [← h]; exact hp
  | op :: rest, m, m', hp, h => by
      simp only [runFrom] at h
      cases ha : applyOp keyEq hash m op with
      | error e => rw [ha] at h; cases h
      | ok mm =>
          rw [ha] at h
          exact runFrom_pow2 keyEq hash rest mm m'
            (applyOp_pow2 keyEq hash m mm op hp ha) h

/-- C5: the integer growth trigger coincides with the exact rational load
factor test 4 * entries > 3 * buckets (or an empty bucket array); one growth
maps 0 buckets to 1 and otherwise exactly doubles; hence every bucket count
reachable by running operations from a fresh map is 0 or a power of two. -/
theorem c5_growth_trigger_and_sizes (keyEq : K → K → Bool) (hash : K → Nat) :
    (∀ m : LinkedHashMap K V,
        m.growCond = true ↔
          (m.buckets.length = 0 ∨ 3 * m.buckets.length < 4 * m.entriesCount)) ∧
    (∀ m : LinkedHashMap K V,
        (m.grow hash).buckets.length =
          if m.buckets.length = 0 then 1 else 2 * m.buckets.length) ∧
    (∀ (ops : List (MapOp K V)) (m : LinkedHashMap K V),
        runOps keyEq hash ops = .ok m →
        m.buckets.length = 0 ∨ ∃ j, m.buckets.length = 2 ^ j) := by
  refine ⟨?_, fun m => grow_buckets_length hash m, ?_⟩
  · intro m
    have h1 : m.growCond = true ↔
        (m.buckets = [] ∨ 3 * m.buckets.length / 4 < m.entriesCount) := by
      simp [LinkedHashMap.growCond, List.isEmpty_iff]
    rw [h1, ← List.length_eq_zero]
    constructor
    · rintro (h | h)
      · exact Or.inl h
      · exact Or.inr (by omega)
    · rintro (h | h)
      · exact Or.inl h
      · exact Or.inr (by omega)
  · intro ops m h
    exact runFrom_pow2 keyEq hash ops LinkedHashMap.new m (Or.inl rfl) h

/-- A concrete Boolean equality on natural-number keys. -/
def natKeyEq : Nat → Nat → Bool := fun a b => a == b

/-- The identity hash on natural-number keys. -/
def natHash : Nat → Nat := fun n => n

/-- A constant hash, exercising bucket collisions. -/
def hashZero : Nat → Nat := fun _ => 0

/-- A short operation sequence triggering two growths and a removal. -/
def opsC5 : List (MapOp Nat Nat) := [.ins 1 10, .ins 2 20, .del 1]

/-- The map state that `opsC5` reaches. -/
def mapC5 : LinkedHashMap Nat Nat := ⟨[[(2, 20)], []], 1⟩

/-- Witness for C5: the reachable-bucket-count clause at a concrete run. -/
theorem c5_witness :
    mapC5.buckets.length = 0 ∨ ∃ j, mapC5.buckets.length = 2 ^ j :=
  (c5_growth_trigger_and_sizes natKeyEq natHash).2.2 opsC5 mapC5 rfl

theorem bucketUpsert_found (keyEq : K → K → Bool) (k k0 : K) (v v0 : V) :
    ∀ (pre post : List (K × V)), (∀ e ∈ pre, keyEq e.1 k = false) →
      keyEq k0 k = true →
      bucketUpsert keyEq k v (pre ++ (k0, v0) :: post)
        = (some v0, pre ++ (k0, v) :: post)
  | [], post, _, hk0 => by simp [bucketUpsert, hk0]
  | e :: pre, post, hpre, hk0 => by
      have he : keyEq e.1 k = false := hpre e (List.mem_cons_self e pre)
      have ih := bucketUpsert_found keyEq k k0 v v0 pre post
        (fun e' he' => hpre e' (List.mem_cons_of_mem e he')) hk0
      simp [bucketUpsert, he, ih]

/-- C9: when `insert` meets a key equal (under `keyEq`) to a stored one, it
replaces only that entry's value: the stored key object `k0` stays (the new
key `k` is discarded), every other entry of every bucket is untouched, the
counter is unchanged — and the only earlier movement of entries is the
optional growth, which permutes the stored entries without changing them. -/
theorem c9_insert_existing_key_frame (keyEq : K → K → Bool) (hash : K → Nat)
    (m m1 : LinkedHashMap K V) (k k0 : K) (v v0 : V) (pre post : List (K × V))
    (hm1 : m1 = if m.growCond then m.grow hash else m)
    (hbkt : m1.buckets.getD (hash k % m1.buckets.length) []
        = pre ++ (k0, v0) :: post)
    (hpre : ∀ e ∈ pre, keyEq e.1 k = false)
    (hk0 : keyEq k0 k = true) :
    (m.grow hash).buckets.flatten.Perm m.buckets.flatten ∧
    LinkedHashMap.insert keyEq hash m k v =
      .ok (some v0,
        ⟨m1.buckets.set (hash k % m1.buckets.length) (pre ++ (k0, v) :: post),
         m1.entriesCount⟩) := by
  refine ⟨grow_flatten_perm hash m, ?_⟩
  subst hm1
  rw [insert_eq]
  simp only [hbkt, bucketUpsert_found keyEq k k0 v v0 pre post hpre hk0]

/-- A concrete four-bucket map for the C9 witness. -/
def mC9 : LinkedHashMap Nat Nat := ⟨[[(5, 7)], [], [], []], 1⟩

/-- Witness for C9 at a concrete collision-free replacement. -/
theorem c9_witness :
    (mC9.grow hashZero).buckets.flatten.Perm mC9.buckets.flatten ∧
    LinkedHashMap.insert natKeyEq hashZero mC9 5 9 =
      .ok (some 7,
        ⟨mC9.buckets.set (hashZero 5 % mC9.buckets.length)
            ([] ++ (5, 9) :: []),
         mC9.entriesCount⟩) :=
  c9_insert_existing_key_frame natKeyEq hashZero mC9 mC9 5 5 9 7 [] []
    (by rfl) (by rfl) (by simp) (by rfl)

/-- The concrete map for the C10 witness. -/
def mC10 : LinkedHashMap Nat Nat := ⟨[[(1, 10)]], 1⟩

/-- Witness for C10 at a concrete map and absent key. -/
theorem c10_witness :
    LinkedHashMap.remove natKeyEq natHash mC10 2 = .ok (none, mC10) :=
  c10_remove_absent_key_is_noop natKeyEq natHash mC10 2 (by decide) (by decide)

/-! ### Specification-side association list

The refinement claims compare the code against the spec's own wording
("get returns the most recently inserted value for k not since removed"),
modelled as an association list with first-match replace / erase / lookup. -/

/-- Spec model of insert: replace the value at the first matching key, else
append the new entry at the end. -/
def specInsert (keyEq : K → K → Bool) (k : K) (v : V) :
    List (K × V) → List (K × V)
  | [] => [(k, v)]
  | e :: rest =>
      if keyEq e.1 k then (k, v) :: rest else e :: specInsert keyEq k v rest

/-- Spec model of remove: drop the first matching entry. -/
def specRemove (keyEq : K → K → Bool) (k : K) :
    List (K × V) → List (K × V)
  | [] => []
  | e :: rest => if keyEq e.1 k then rest else e :: specRemove keyEq k rest

/-- Spec model of lookup: the value of the first matching entry. -/
def specLookup (keyEq : K → K → Bool) (k : K) (l : List (K × V)) : Option V :=
  (l.find? fun e => keyEq e.1 k).map Prod.snd

/-- Apply one operation on the spec side. -/
def specApply (keyEq : K → K → Bool) (l : List (K × V)) :
    MapOp K V → List (K × V)
  | .ins k v => specInsert keyEq k v l
  | .del k => specRemove keyEq k l

/-- Run a list of operations on the spec side, left to right. -/
def runSpec (keyEq : K → K → Bool) :
    List (MapOp K V) → List (K × V) → List (K × V)
  | [], l => l
  | op :: rest, l => runSpec keyEq rest (specApply keyEq l op)

theorem keyEq_false_of_ne (keyEq : K → K → Bool)
    (hleq : ∀ a b, keyEq a b = true ↔ a = b)
    (a b : K) (h : a ≠ b) : keyEq a b = false := by
  cases hk : keyEq a b
  · rfl
  · exact absurd ((hleq _ _).mp hk) h

theorem bucketUpsert_not_found (keyEq : K → K → Bool) (k : K) (v : V) :
    ∀ b : List (K × V), (∀ e ∈ b, keyEq e.1 k = false) →
      bucketUpsert keyEq k v b = (none, b ++ [(k, v)])
  | [], _ => rfl
  | e :: rest, hb => by
      have he : keyEq e.1 k = false := hb e (List.mem_cons_self e rest)
      have ih := bucketUpsert_not_found keyEq k v rest
        (fun e' he' => hb e' (List.mem_cons_of_mem e he'))
      simp [bucketUpsert, he, ih]

theorem specInsert_not_found (keyEq : K → K → Bool) (k : K) (v : V) :
    ∀ l : List (K × V), (∀ e ∈ l, keyEq e.1 k = false) →
      specInsert keyEq k v l = l ++ [(k, v)]
  | [], _ => rfl
  | e :: rest, hb => by
      have he : keyEq e.1 k = false := hb e (List.mem_cons_self e rest)
      have ih := specInsert_not_found keyEq k v rest
        (fun e' he' => hb e' (List.mem_cons_of_mem e he'))
      simp [specInsert, he, ih]

theorem specInsert_found (keyEq : K → K → Bool) (k k0 : K) (v v0 : V) :
    ∀ (A B : List (K × V)), (∀ e ∈ A, keyEq e.1 k = false) →
      keyEq k0 k = true →
      specInsert keyEq k v (A ++ (k0, v0) :: B) = A ++ (k, v) :: B
  | [], B, _, hk0 => by simp [specInsert, hk0]
  | e :: A, B, hA, hk0 => by
      have he : keyEq e.1 k = false := hA e (List.mem_cons_self e A)
      have ih := specInsert_found keyEq k k0 v v0 A B
        (fun e' he' => hA e' (List.mem_cons_of_mem e he')) hk0
      simp [specInsert, he, ih]

theorem specRemove_not_found (keyEq : K → K → Bool) (k : K) :
    ∀ l : List (K × V), (∀ e ∈ l, keyEq e.1 k = false) →
      specRemove keyEq k l = l
  | [], _ => rfl
  | e :: rest, hb => by
      have he : keyEq e.1 k = false := hb e (List.mem_cons_self e rest)
      have ih := specRemove_not_found keyEq k rest
        (fun e' he' => hb e' (List.mem_cons_of_mem e he'))
      simp [specRemove, he, ih]

theorem specRemove_found (keyEq : K → K → Bool) (k k0 : K) (v0 : V) :
    ∀ (A B : List (K × V)), (∀ e ∈ A, keyEq e.1 k = false) →
      keyEq k0 k = true →
      specRemove keyEq k (A ++ (k0, v0) :: B) = A ++ B
  | [], B, _, hk0 => by simp [specRemove, hk0]
  | e :: A, B, hA, hk0 => by
      have he : keyEq e.1 k = false := hA e (List.mem_cons_self e A)
      have ih := specRemove_found keyEq k k0 v0 A B
        (fun e' he' => hA e' (List.mem_cons_of_mem e he')) hk0
      simp [specRemove, he, ih]

theorem specLookup_not_found (keyEq : K → K → Bool) (k : K)
    (l : List (K × V)) (h : ∀ e ∈ l, keyEq e.1 k = false) :
    specLookup keyEq k l = none := by
  have : l.find? (fun e => keyEq e.1 k) = none := by
    rw [List.find?_eq_none]
    intro e he
    simp [h e he]
  simp [specLookup, this]

theorem find?_first_of_nodup (keyEq : K → K → Bool)
    (hleq : ∀ a b, keyEq a b = true ↔ a = b) (k : K) (v0 : V) :
    ∀ l : List (K × V), (l.map Prod.fst).Nodup → (k, v0) ∈ l →
      l.find? (fun e => keyEq e.1 k) = some (k, v0)
  | [], _, hm => by simp at hm
  | e :: rest, hnd, hm => by
      rw [List.map_cons] at hnd
      rcases List.nodup_cons.mp hnd with ⟨hne, hnd'⟩
      rcases List.mem_cons.mp hm with he | hm'
      · subst he
        exact List.find?_cons_of_pos _ (by simp [(hleq k k).mpr rfl])
      · have hek : keyEq e.1 k = false := by
          refine keyEq_false_of_ne keyEq hleq _ _ ?_
          intro hc
          exact hne (hc ▸ List.mem_map.mpr ⟨(k, v0), hm', rfl⟩)
        rw [List.find?_cons_of_neg _ (by simp [hek])]
        exact find?_first_of_nodup keyEq hleq k v0 rest hnd' hm'

theorem specLookup_found (keyEq : K → K → Bool)
    (hleq : ∀ a b, keyEq a b = true ↔ a = b) (k : K) (v0 : V)
    (l : List (K × V)) (hnd : (l.map Prod.fst).Nodup) (hm : (k, v0) ∈ l) :
    specLookup keyEq k l = some v0 := by
  rw [specLookup, find?_first_of_nodup keyEq hleq k v0 l hnd hm]
  rfl

theorem mem_decomp_first (keyEq : K → K → Bool)
    (hleq : ∀ a b, keyEq a b = true ↔ a = b) (k : K) (v0 : V)
    (l : List (K × V)) (hnd : (l.map Prod.fst).Nodup) (hm : (k, v0) ∈ l) :
    ∃ A B, l = A ++ (k, v0) :: B ∧ ∀ e ∈ A, keyEq e.1 k = false := by
  rcases List.append_of_mem hm with ⟨A, B, rfl⟩
  refine ⟨A, B, rfl, ?_⟩
  intro e heA
  refine keyEq_false_of_ne keyEq hleq _ _ ?_
  intro hc
  rw [List.map_append, List.map_cons] at hnd
  have hdisj := List.disjoint_of_nodup_append hnd
  exact hdisj (List.mem_map.mpr ⟨e, heA, hc⟩) (List.mem_cons_self _ _)

theorem findIdx?_first_match {α : Type} (p : α → Bool) (x : α)
    (hx : p x = true) :
    ∀ (A B : List α), (∀ e ∈ A, p e = false) →
      (A ++ x :: B).findIdx? p = some A.length
  | [], B, _ => by simp [List.findIdx?_cons, hx]
  | a :: A, B, hA => by
      have ha : p a = false := hA a (List.mem_cons_self a A)
      have ih := findIdx?_first_match p x hx A B
        (fun e he => hA e (List.mem_cons_of_mem a he))
      simp [List.findIdx?_cons, ha, ih]

theorem getElem?_append_middle {α : Type} (A B : List α) (x : α) :
    (A ++ x :: B)[A.length]? = some x := by
  rw [List.getElem?_append_right (Nat.le_refl _)]
  simp

/-! ### Well-formedness of a map state -/

/-- Invariants of a reachable map state: every entry sits in the bucket
selected by its key's hash modulo the array length, and the stored keys are
pairwise distinct. -/
structure LinkedHashMap.WF (hash : K → Nat) (m : LinkedHashMap K V) : Prop where
  placed : ∀ i, ∀ e ∈ m.buckets.getD i [], hash e.1 % m.buckets.length = i
  nodupKeys : (m.buckets.flatten.map Prod.fst).Nodup

theorem getD_eq_getElem {α : Type} (l : List α) (i : Nat) (d : α)
    (h : i < l.length) : l.getD i d = l[i] := by
  rw [List.getD_eq_getElem?_getD, List.getElem?_eq_getElem h]
  rfl

theorem wf_new (hash : K → Nat) :
    (LinkedHashMap.new : LinkedHashMap K V).WF hash := by
  constructor
  · intro i e he
    simp [LinkedHashMap.new, List.getD] at he
  · simp [LinkedHashMap.new]

theorem mem_bucket_of_mem_flatten (hash : K → Nat) (m : LinkedHashMap K V)
    (hwf : m.WF hash) (e : K × V) (he : e ∈ m.buckets.flatten) :
    m.buckets.length ≠ 0 ∧
    e ∈ m.buckets.getD (hash e.1 % m.buckets.length) [] := by
  rcases List.mem_flatten.mp he with ⟨b, hb, heb⟩
  rcases List.mem_iff_getElem.mp hb with ⟨j, hj, rfl⟩
  have heD : e ∈ m.buckets.getD j [] := by
    rw [getD_eq_getElem _ _ _ hj]
    exact heb
  have hpl := hwf.placed j e heD
  refine ⟨by omega, ?_⟩
  rw [hpl]
  exact heD

theorem mem_flatten_of_mem_bucket (m : LinkedHashMap K V) (i : Nat)
    (e : K × V) (he : e ∈ m.buckets.getD i []) : e ∈ m.buckets.flatten := by
  by_cases h : i < m.buckets.length
  · rw [getD_eq_getElem _ _ _ h] at he
    exact List.mem_flatten.mpr ⟨m.buckets[i], List.getElem_mem h, he⟩
  · rw [List.getD_eq_getElem?_getD, List.getElem?_eq_none (by omega)] at he
    simp at he

theorem bucket_decomp_perm (m : LinkedHashMap K V) (i : Nat)
    (h : i < m.buckets.length) :
    m.buckets.flatten.Perm
      (m.buckets.getD i [] ++ (m.buckets.eraseIdx i).flatten) := by
  rw [getD_eq_getElem _ _ _ h]
  exact flatten_eq_getElem_append _ _ h

theorem bucket_nodupKeys (hash : K → Nat) (m : LinkedHashMap K V)
    (hwf : m.WF hash) (i : Nat) (h : i < m.buckets.length) :
    ((m.buckets.getD i []).map Prod.fst).Nodup := by
  have hnd := ((bucket_decomp_perm m i h).map Prod.fst).nodup_iff.mp hwf.nodupKeys
  rw [List.map_append] at hnd
  exact hnd.of_append_left

/-- Setting one bucket keeps the placement invariant as long as the new
bucket's entries either come from the old bucket or hash to that index. -/
theorem wf_set_bucket (hash : K → Nat) (m : LinkedHashMap K V)
    (hwf : m.WF hash) (idx : Nat) (b2 : List (K × V)) (cnt : Nat)
    (hlt : idx < m.buckets.length)
    (hmem : ∀ e ∈ b2, e ∈ m.buckets.getD idx []
        ∨ hash e.1 % m.buckets.length = idx)
    (hnd : (((m.buckets.set idx b2).flatten).map Prod.fst).Nodup) :
    (⟨m.buckets.set idx b2, cnt⟩ : LinkedHashMap K V).WF hash := by
  constructor
  · intro i e he
    dsimp only at he ⊢
    rw [List.length_set]
    by_cases hii : i = idx
    · subst hii
      rw [getD_set_self _ _ _ _ hlt] at he
      rcases hmem e he with hca | hca
      · exact hwf.placed i e hca
      · exact hca
    · rw [getD_set_ne _ _ _ _ _ (Ne.symm hii)] at he
      exact hwf.placed i e he
  · exact hnd

theorem flatten_set_getD_append_perm {α : Type} (bs : List (List α)) (i : Nat)
    (l2 : List α) (h : i < bs.length) :
    (bs.set i (bs.getD i [] ++ l2)).flatten.Perm (bs.flatten ++ l2) := by
  rw [getD_eq_getElem _ _ _ h]
  refine (flatten_set_perm _ _ _ h).trans ?_
  have h1 : ((bs[i] ++ l2) ++ (bs.eraseIdx i).flatten).Perm
      ((bs[i] ++ (bs.eraseIdx i).flatten) ++ l2) := by
    rw [List.append_assoc, List.append_assoc]
    exact (List.perm_append_comm).append_left _
  exact h1.trans (((flatten_eq_getElem_append bs _ h).symm).append_right l2)

theorem append_cons_perm {α : Type} (A : List α) (x : α) (B R : List α) :
    ((A ++ x :: B) ++ R).Perm (x :: (A ++ (B ++ R))) := by
  rw [List.append_assoc, List.cons_append]
  exact List.perm_middle

theorem eraseIdx_append_middle {α : Type} (x : α) :
    ∀ (A B : List α), (A ++ x :: B).eraseIdx A.length = A ++ B
  | [], B => rfl
  | a :: A, B => by
      simp only [List.cons_append, List.eraseIdx_cons_succ, List.length_cons]
      rw [eraseIdx_append_middle x A B]

theorem insert_step (keyEq : K → K → Bool) (hash : K → Nat)
    (hleq : ∀ a b, keyEq a b = true ↔ a = b)
    (m : LinkedHashMap K V) (abs : List (K × V)) (k : K) (v : V)
    (hwf : m.WF hash) (hperm : m.buckets.flatten.Perm abs) :
    ∃ m', LinkedHashMap.insert keyEq hash m k v
        = .ok (specLookup keyEq k abs, m') ∧
      m'.WF hash ∧
      m'.buckets.flatten.Perm (specInsert keyEq k v abs) ∧
      m'.entriesCount =
        (match specLookup keyEq k abs with
         | none => m.entriesCount + 1
         | some _ => m.entriesCount) := by
  obtain ⟨m1, hm1⟩ : ∃ m1, (if m.growCond then m.grow hash else m) = m1 :=
    ⟨_, rfl⟩
  have hm1wf : m1.WF hash := by
    rw [← hm1]
    by_cases hg : m.growCond
    · rw [if_pos hg]
      exact ⟨grow_placed hash m,
        ((grow_flatten_perm hash m).map Prod.fst).nodup_iff.mpr hwf.nodupKeys⟩
    · rw [if_neg hg]
      exact hwf
  have hm1perm : m1.buckets.flatten.Perm abs := by
    rw [← hm1]
    by_cases hg : m.growCond
    · rw [if_pos hg]; exact (grow_flatten_perm hash m).trans hperm
    · rw [if_neg hg]; exact hperm
  have hm1cnt : m1.entriesCount = m.entriesCount := by
    rw [← hm1]
    by_cases hg : m.growCond
    · rw [if_pos hg]; rfl
    · rw [if_neg hg]
  have hpos : m1.buckets.length ≠ 0 := by
    rw [← hm1]; exact insert_m1_length_pos hash m
  have hlt : hash k % m1.buckets.length < m1.buckets.length :=
    Nat.mod_lt _ (Nat.pos_of_ne_zero hpos)
  have habsnd : (abs.map Prod.fst).Nodup :=
    (hperm.map Prod.fst).nodup_iff.mp hwf.nodupKeys
  have hins0 := insert_eq keyEq hash m k v
  rw [hm1] at hins0
  by_cases hk : ∃ v0, (k, v0) ∈ abs
  · rcases hk with ⟨v0, hv0⟩
    have hlk : specLookup keyEq k abs = some v0 :=
      specLookup_found keyEq hleq k v0 abs habsnd hv0
    have hmem : (k, v0) ∈ m1.buckets.flatten := hm1perm.mem_iff.mpr hv0
    have hinb := (mem_bucket_of_mem_flatten hash m1 hm1wf (k, v0) hmem).2
    have hbnd : ((m1.buckets.getD (hash k % m1.buckets.length) []).map
        Prod.fst).Nodup := bucket_nodupKeys hash m1 hm1wf _ hlt
    rcases mem_decomp_first keyEq hleq k v0 _ hbnd hinb with ⟨A, B, hdec, hA⟩
    have hupsert : bucketUpsert keyEq k v
        (m1.buckets.getD (hash k % m1.buckets.length) [])
        = (some v0, A ++ (k, v) :: B) := by
      rw [hdec]
      exact bucketUpsert_found keyEq k k v v0 A B hA ((hleq k k).mpr rfl)
    simp only [hupsert] at hins0
    rcases mem_decomp_first keyEq hleq k v0 abs habsnd hv0 with ⟨A2, B2, hdec2, hA2⟩
    have hspec : specInsert keyEq k v abs = A2 ++ (k, v) :: B2 := by
      rw [hdec2]
      exact specInsert_found keyEq k k v v0 A2 B2 hA2 ((hleq k k).mpr rfl)
    have hfl' : (m1.buckets.set (hash k % m1.buckets.length)
        (A ++ (k, v) :: B)).flatten.Perm
        ((k, v) :: (A ++ (B ++ (m1.buckets.eraseIdx
          (hash k % m1.buckets.length)).flatten))) :=
      (flatten_set_perm _ _ _ hlt).trans (append_cons_perm A (k, v) B _)
    have hfl0 : m1.buckets.flatten.Perm
        ((k, v0) :: (A ++ (B ++ (m1.buckets.eraseIdx
          (hash k % m1.buckets.length)).flatten))) := by
      refine (bucket_decomp_perm m1 _ hlt).trans ?_
      rw [hdec]
      exact append_cons_perm A (k, v0) B _
    have habs2 : abs.Perm ((k, v0) :: (A2 ++ B2)) := by
      rw [hdec2]
      exact List.perm_middle
    have hcancel : (A ++ (B ++ (m1.buckets.eraseIdx
        (hash k % m1.buckets.length)).flatten)).Perm (A2 ++ B2) :=
      ((hfl0.symm.trans hm1perm).trans habs2).cons_inv
    refine ⟨⟨m1.buckets.set (hash k % m1.buckets.length) (A ++ (k, v) :: B),
      m1.entriesCount⟩, ?_, ?_, ?_, ?_⟩
    · rw [hins0, hlk]
    · refine wf_set_bucket hash m1 hm1wf _ _ _ hlt ?_ ?_
      · intro e he
        rcases List.mem_append.mp he with h1 | h2
        · exact Or.inl (by rw [hdec]; exact List.mem_append.mpr (Or.inl h1))
        · rcases List.mem_cons.mp h2 with h3 | h4
          · subst h3
            exact Or.inr rfl
          · exact Or.inl (by
              rw [hdec]
              exact List.mem_append.mpr (Or.inr (List.mem_cons_of_mem _ h4)))
      · refine (hfl'.map Prod.fst).nodup_iff.mpr ?_
        have hnd0 := (hfl0.map Prod.fst).nodup_iff.mp hm1wf.nodupKeys
        simpa using hnd0
    · dsimp only
      rw [hspec]
      exact hfl'.trans ((hcancel.cons (k, v)).trans List.perm_middle.symm)
    · rw [hlk]
      exact hm1cnt
  · have habs : ∀ e ∈ abs, keyEq e.1 k = false := by
      intro e he
      refine keyEq_false_of_ne keyEq hleq _ _ ?_
      intro hc
      refine hk ⟨e.2, ?_⟩
      rw [← hc]
      simpa using he
    have hlk : specLookup keyEq k abs = none :=
      specLookup_not_found keyEq k abs habs
    have hbktabs : ∀ e ∈ m1.buckets.getD (hash k % m1.buckets.length) [],
        keyEq e.1 k = false := by
      intro e he
      exact habs e (hm1perm.mem_iff.mp (mem_flatten_of_mem_bucket m1 _ e he))
    have hupsert : bucketUpsert keyEq k v
        (m1.buckets.getD (hash k % m1.buckets.length) [])
        = (none, m1.buckets.getD (hash k % m1.buckets.length) [] ++ [(k, v)]) :=
      bucketUpsert_not_found keyEq k v _ hbktabs
    simp only [hupsert] at hins0
    have hfl' := flatten_set_getD_append_perm m1.buckets
      (hash k % m1.buckets.length) [(k, v)] hlt
    have hknotin : ∀ e ∈ m1.buckets.flatten, keyEq e.1 k = false := by
      intro e he
      exact habs e (hm1perm.mem_iff.mp he)
    refine ⟨⟨m1.buckets.set (hash k % m1.buckets.length)
        (m1.buckets.getD (hash k % m1.buckets.length) [] ++ [(k, v)]),
      m1.entriesCount + 1⟩, ?_, ?_, ?_, ?_⟩
    · rw [hins0, hlk]
    · refine wf_set_bucket hash m1 hm1wf _ _ _ hlt ?_ ?_
      · intro e he
        rcases List.mem_append.mp he with h1 | h2
        · exact Or.inl h1
        · have he2 : e = (k, v) := by simpa using h2
          subst he2
          exact Or.inr rfl
      · refine (hfl'.map Prod.fst).nodup_iff.mpr ?_
        simp only [List.map_append, List.map_cons, List.map_nil]
        refine (List.perm_append_singleton _ _).nodup_iff.mpr ?_
        rw [List.nodup_cons]
        refine ⟨?_, hm1wf.nodupKeys⟩
        intro hc
        rcases List.mem_map.mp hc with ⟨e, hemem, hef⟩
        have hfalse := hknotin e hemem
        have htrue : keyEq e.1 k = true := (hleq _ _).mpr hef
        rw [htrue] at hfalse
        cases hfalse
    · dsimp only
      rw [specInsert_not_found keyEq k v abs habs]
      exact hfl'.trans (hm1perm.append_right [(k, v)])
    · rw [hlk]
      dsimp only
      rw [hm1cnt]

theorem remove_ok_length_pos (keyEq : K → K → Bool) (hash : K → Nat)
    (m : LinkedHashMap K V) (k : K) (p : Option V × LinkedHashMap K V)
    (h : LinkedHashMap.remove keyEq hash m k = .ok p) :
    m.buckets.length ≠ 0 := by
  intro hz
  unfold LinkedHashMap.remove at h
  simp [keyToIdx, hz] at h

theorem remove_step (keyEq : K → K → Bool) (hash : K → Nat)
    (hleq : ∀ a b, keyEq a b = true ↔ a = b)
    (m : LinkedHashMap K V) (abs : List (K × V)) (k : K)
    (hwf : m.WF hash) (hperm : m.buckets.flatten.Perm abs)
    (hpos : m.buckets.length ≠ 0) :
    ∃ m', LinkedHashMap.remove keyEq hash m k
        = .ok (specLookup keyEq k abs, m') ∧
      m'.WF hash ∧
      m'.buckets.flatten.Perm (specRemove keyEq k abs) := by
  have hlt : hash k % m.buckets.length < m.buckets.length :=
    Nat.mod_lt _ (Nat.pos_of_ne_zero hpos)
  have habsnd : (abs.map Prod.fst).Nodup :=
    (hperm.map Prod.fst).nodup_iff.mp hwf.nodupKeys
  have hrm0 : LinkedHashMap.remove keyEq hash m k =
      (let bucket := m.buckets.getD (hash k % m.buckets.length) []
       match bucket.findIdx? (fun e => keyEq e.1 k) with
       | none => .ok (none, m)
       | some i =>
          .ok (bucket[i]?.map Prod.snd,
               ⟨m.buckets.set (hash k % m.buckets.length) (swapRemove bucket i),
                m.entriesCount - 1⟩)) := by
    unfold LinkedHashMap.remove
    simp only [keyToIdx, if_neg hpos]
  by_cases hk : ∃ v0, (k, v0) ∈ abs
  · rcases hk with ⟨v0, hv0⟩
    have hlk := specLookup_found keyEq hleq k v0 abs habsnd hv0
    have hmem : (k, v0) ∈ m.buckets.flatten := hperm.mem_iff.mpr hv0
    have hinb := (mem_bucket_of_mem_flatten hash m hwf (k, v0) hmem).2
    have hbnd := bucket_nodupKeys hash m hwf _ hlt
    rcases mem_decomp_first keyEq hleq k v0 _ hbnd hinb with ⟨A, B, hdec, hA⟩
    have hfind : (m.buckets.getD (hash k % m.buckets.length) []).findIdx?
        (fun e => keyEq e.1 k) = some A.length := by
      rw [hdec]
      exact findIdx?_first_match _ (k, v0) (by simp [(hleq k k).mpr rfl]) A B
        (fun e he => by simpa using hA e he)
    have hgetbkt : (m.buckets.getD (hash k % m.buckets.length) [])[A.length]?
        = some (k, v0) := by
      rw [hdec]
      exact getElem?_append_middle A B (k, v0)
    have hALlt : A.length <
        (m.buckets.getD (hash k % m.buckets.length) []).length := by
      rw [hdec]; simp
    have hswap := swapRemove_perm
      (m.buckets.getD (hash k % m.buckets.length) []) A.length hALlt
    have hswap2 : (swapRemove (m.buckets.getD (hash k % m.buckets.length) [])
        A.length).Perm (A ++ B) := by
      refine hswap.trans ?_
      rw [hdec, eraseIdx_append_middle]
    have hflperm : (m.buckets.set (hash k % m.buckets.length)
        (swapRemove (m.buckets.getD (hash k % m.buckets.length) [])
          A.length)).flatten.Perm
        ((A ++ B) ++ (m.buckets.eraseIdx
          (hash k % m.buckets.length)).flatten) :=
      (flatten_set_perm _ _ _ hlt).trans (hswap2.append_right _)
    have hfl0 : m.buckets.flatten.Perm
        ((k, v0) :: (A ++ (B ++ (m.buckets.eraseIdx
          (hash k % m.buckets.length)).flatten))) := by
      refine (bucket_decomp_perm m _ hlt).trans ?_
      rw [hdec]
      exact append_cons_perm A (k, v0) B _
    rcases mem_decomp_first keyEq hleq k v0 abs habsnd hv0 with ⟨A2, B2, hdec2, hA2⟩
    have hspec : specRemove keyEq k abs = A2 ++ B2 := by
      rw [hdec2]
      exact specRemove_found keyEq k k v0 A2 B2 hA2 ((hleq k k).mpr rfl)
    have habs2 : abs.Perm ((k, v0) :: (A2 ++ B2)) := by
      rw [hdec2]
      exact List.perm_middle
    have hcancel : (A ++ (B ++ (m.buckets.eraseIdx
        (hash k % m.buckets.length)).flatten)).Perm (A2 ++ B2) :=
      ((hfl0.symm.trans hperm).trans habs2).cons_inv
    refine ⟨⟨m.buckets.set (hash k % m.buckets.length)
        (swapRemove (m.buckets.getD (hash k % m.buckets.length) []) A.length),
      m.entriesCount - 1⟩, ?_, ?_, ?_⟩
    · rw [hrm0]
      simp only [hfind, hgetbkt, hlk, Option.map_some']
    · refine wf_set_bucket hash m hwf _ _ _ hlt ?_ ?_
      · intro e he
        have he2 : e ∈ (m.buckets.getD (hash k % m.buckets.length)
            []).eraseIdx A.length := hswap.mem_iff.mp he
        exact Or.inl ((List.eraseIdx_sublist _ _).subset he2)
      · refine (hflperm.map Prod.fst).nodup_iff.mpr ?_
        have hnd0 := (hfl0.map Prod.fst).nodup_iff.mp hwf.nodupKeys
        rw [List.map_cons] at hnd0
        rcases List.nodup_cons.mp hnd0 with ⟨_, hnd1⟩
        simpa using hnd1
    · dsimp only
      rw [hspec]
      refine hflperm.trans ?_
      rw [List.append_assoc]
      exact hcancel
  · have habs : ∀ e ∈ abs, keyEq e.1 k = false := by
      intro e he
      refine keyEq_false_of_ne keyEq hleq _ _ ?_
      intro hc
      refine hk ⟨e.2, ?_⟩
      rw [← hc]
      simpa using he
    have hlk := specLookup_not_found keyEq k abs habs
    have hbktabs : ∀ e ∈ m.buckets.getD (hash k % m.buckets.length) [],
        keyEq e.1 k = false := by
      intro e he
      exact habs e (hperm.mem_iff.mp (mem_flatten_of_mem_bucket m _ e he))
    have hfind : (m.buckets.getD (hash k % m.buckets.length) []).findIdx?
        (fun e => keyEq e.1 k) = none := by
      rw [List.findIdx?_eq_none_iff]
      intro e he
      simpa using hbktabs e he
    refine ⟨m, ?_, hwf, ?_⟩
    · rw [hrm0]
      simp only [hfind, hlk]
    · rw [specRemove_not_found keyEq k abs habs]
      exact hperm

theorem runFrom_wf_perm (keyEq : K → K → Bool) (hash : K → Nat)
    (hleq : ∀ a b, keyEq a b = true ↔ a = b) :
    ∀ (ops : List (MapOp K V)) (m m' : LinkedHashMap K V) (abs : List (K × V)),
      m.WF hash → m.buckets.flatten.Perm abs →
      runFrom keyEq hash m ops = .ok m' →
      m'.WF hash ∧ m'.buckets.flatten.Perm (runSpec keyEq ops abs)
  | [], m, m', abs, hwf, hperm, h => by
      simp only [runFrom] at h
      injection h with h
      subst h
      exact ⟨hwf, hperm⟩
  | op :: rest, m, m', abs, hwf, hperm, h => by
      simp only [runFrom] at h
      simp only [runSpec]
      cases op with
      | ins k v =>
          rcases insert_step keyEq hash hleq m abs k v hwf hperm with
            ⟨mm, hins, hwf2, hperm2, _⟩
          rw [show applyOp keyEq hash m (.ins k v) = .ok mm from by
            simp [applyOp, hins, Except.map]] at h
          exact runFrom_wf_perm keyEq hash hleq rest mm m' _ hwf2 hperm2 h
      | del k =>
          cases ha : applyOp keyEq hash m (.del k) with
          | error e => rw [ha] at h; cases h
          | ok mm =>
              rw [ha] at h
              simp only [applyOp] at ha
              cases hr : LinkedHashMap.remove keyEq hash m k with
              | error e => rw [hr] at ha; simp [Except.map] at ha
              | ok p =>
                  rw [hr] at ha
                  simp only [Except.map] at ha
                  injection ha with ha
                  have hpos := remove_ok_length_pos keyEq hash m k p hr
                  rcases remove_step keyEq hash hleq m abs k hwf hperm hpos with
                    ⟨mm2, hrm, hwf2, hperm2⟩
                  rw [hr] at hrm
                  injection hrm with hrm
                  have hmmeq : mm = mm2 := by rw [← ha, hrm]
                  subst hmmeq
                  exact runFrom_wf_perm keyEq hash hleq rest mm m' _ hwf2 hperm2 h

/-- C6: after any sequence of inserts and removes that the code completes
without fault — growths included — every key that the spec-side association
list still maps to a value is retrievable via `get` with exactly that most
recently inserted value, and every stored entry resides in the bucket
indexed by its key's hash modulo the current bucket-array length. -/
theorem c6_growth_preserves_retrievability (keyEq : K → K → Bool)
    (hash : K → Nat) (hleq : ∀ a b, keyEq a b = true ↔ a = b)
    (ops : List (MapOp K V)) (m : LinkedHashMap K V)
    (hrun : runOps keyEq hash ops = .ok m) :
    (∀ k v, specLookup keyEq k (runSpec keyEq ops []) = some v →
        LinkedHashMap.get keyEq hash m k = .ok (some v)) ∧
    (∀ i, ∀ e ∈ m.buckets.getD i [], hash e.1 % m.buckets.length = i) := by
  rcases runFrom_wf_perm keyEq hash hleq ops LinkedHashMap.new m []
    (wf_new hash) (by simp [LinkedHashMap.new]) hrun with ⟨hwf, hperm⟩
  refine ⟨?_, hwf.placed⟩
  intro k v hlkup
  obtain ⟨e, hfind⟩ : ∃ e, (runSpec keyEq ops []).find?
      (fun e => keyEq e.1 k) = some e := by
    unfold specLookup at hlkup
    cases hf : (runSpec keyEq ops []).find? (fun e => keyEq e.1 k) with
    | none => rw [hf] at hlkup; cases hlkup
    | some e => exact ⟨e, rfl⟩
  obtain ⟨e1, e2⟩ := e
  have hemem : (e1, e2) ∈ runSpec keyEq ops [] :=
    List.mem_of_find?_eq_some hfind
  have hetrue : keyEq e1 k = true := by
    have := List.find?_some hfind
    simpa using this
  have hek : e1 = k := (hleq _ _).mp hetrue
  have hev : e2 = v := by
    unfold specLookup at hlkup
    rw [hfind] at hlkup
    simpa using hlkup
  subst hek
  subst hev
  have hmem : (e1, e2) ∈ m.buckets.flatten := hperm.mem_iff.mpr hemem
  rcases mem_bucket_of_mem_flatten hash m hwf (e1, e2) hmem with ⟨hpos, hinb⟩
  have hbnd := bucket_nodupKeys hash m hwf (hash e1 % m.buckets.length)
    (Nat.mod_lt _ (Nat.pos_of_ne_zero hpos))
  have hfind2 := find?_first_of_nodup keyEq hleq e1 e2 _ hbnd hinb
  unfold LinkedHashMap.get
  simp only [keyToIdx, if_neg hpos]
  rw [hfind2]
  rfl

/-- Witness for C6 at a concrete run of three operations. -/
theorem c6_witness :
    (∀ k v, specLookup natKeyEq k (runSpec natKeyEq opsC5 []) = some v →
        LinkedHashMap.get natKeyEq natHash mapC5 k = .ok (some v)) ∧
    (∀ i, ∀ e ∈ mapC5.buckets.getD i [],
        natHash e.1 % mapC5.buckets.length = i) :=
  c6_growth_preserves_retrievability natKeyEq natHash
    (by intro a b; simp [natKeyEq]) opsC5 mapC5 rfl

/-- C4: on a well-formed map, insert over an already-stored equal key returns
the stored value and leaves the entry counter unchanged, while insert of an
absent key returns the no-previous-value outcome and increments the entry
counter by exactly one. -/
theorem c4_insert_len_and_result (keyEq : K → K → Bool) (hash : K → Nat)
    (hleq : ∀ a b, keyEq a b = true ↔ a = b)
    (m : LinkedHashMap K V) (k : K) (v : V) (hwf : m.WF hash) :
    (∀ v0, (k, v0) ∈ m.buckets.flatten →
        ∃ m', LinkedHashMap.insert keyEq hash m k v = .ok (some v0, m') ∧
          m'.len = m.len) ∧
    ((∀ e ∈ m.buckets.flatten, keyEq e.1 k = false) →
        ∃ m', LinkedHashMap.insert keyEq hash m k v = .ok (none, m') ∧
          m'.len = m.len + 1) := by
  constructor
  · intro v0 hv0
    rcases insert_step keyEq hash hleq m m.buckets.flatten k v hwf
      (List.Perm.refl _) with ⟨m', hins, _, _, hcnt⟩
    have hlk : specLookup keyEq k m.buckets.flatten = some v0 :=
      specLookup_found keyEq hleq k v0 _ hwf.nodupKeys hv0
    rw [hlk] at hins hcnt
    exact ⟨m', hins, by simpa [LinkedHashMap.len] using hcnt⟩
  · intro habs
    rcases insert_step keyEq hash hleq m m.buckets.flatten k v hwf
      (List.Perm.refl _) with ⟨m', hins, _, _, hcnt⟩
    have hlk : specLookup keyEq k m.buckets.flatten = none :=
      specLookup_not_found keyEq k _ habs
    rw [hlk] at hins hcnt
    exact ⟨m', hins, by simpa [LinkedHashMap.len] using hcnt⟩

theorem mapC5_wf : mapC5.WF natHash := by
  constructor
  · intro i e he
    match i with
    | 0 =>
        have he2 : e = (2, 20) := by simpa [mapC5] using he
        subst he2
        rfl
    | 1 => simp [mapC5] at he
    | (n + 2) =>
        rw [List.getD_eq_getElem?_getD] at he
        simp [mapC5] at he
  · simp [mapC5]

/-- Witness for C4: replacing the stored value of key 2 keeps the length. -/
theorem c4_witness :
    ∃ m', LinkedHashMap.insert natKeyEq natHash mapC5 2 99 = .ok (some 20, m') ∧
      m'.len = mapC5.len :=
  (c4_insert_len_and_result natKeyEq natHash (by intro a b; simp [natKeyEq])
    mapC5 2 99 mapC5_wf).1 20 (by decide)

/-! ## The doubly linked list (`src/containers/doubly_linked_list.rs`)

Nodes live in an explicit heap addressed by natural numbers: `Box::into_raw`
allocates at the end of the heap, dropping a `Box` frees the slot.  The raw
pointers `Option<NonNull<Node<T>>>` become `Option Nat`. -/

/-- Embedding of `Node<T>`. -/
structure Node (α : Type) where
  prev : Option Nat
  next : Option Nat
  data : α
  deriving DecidableEq, Repr

/-- The heap of nodes: address `a` is live while slot `a` holds a node. -/
abbrev Heap (α : Type) : Type := List (Option (Node α))

/-- Embedding of `DoublyLinkedList<T>`: the two anchors and the length. -/
structure DoublyLinkedList (α : Type) where
  head : Option Nat
  tail : Option Nat
  len : Nat
  deriving DecidableEq, Repr

variable {α : Type}

/-- Read the slot at an address (out of range or freed gives `none`). -/
def heapAt (s : Heap α) (a : Nat) : Option (Node α) :=
  s.getD a none

/-- Dropping a `Box` frees its slot. -/
def heapFree (s : Heap α) (a : Nat) : Heap α :=
  s.set a none

/-- Dereference a raw node pointer; a dead address is undefined behaviour,
modelled as a fault. -/
def readNode (s : Heap α) (a : Nat) : Except Fault (Node α) :=
  match heapAt s a with
  | none => .error .invalidDeref
  | some n => .ok n

/-- Embedding of `DoublyLinkedList::new`. -/
def DoublyLinkedList.new : DoublyLinkedList α :=
  ⟨none, none, 0⟩

/-- Embedding of `DoublyLinkedList::len`. -/
def DoublyLinkedList.length (l : DoublyLinkedList α) : Nat :=
  l.len

/-- Embedding of `DoublyLinkedList::is_empty`. -/
def DoublyLinkedList.isEmpty (l : DoublyLinkedList α) : Bool :=
  l.len == 0

/-- Embedding of `DoublyLinkedList::front`. -/
def DoublyLinkedList.front (s : Heap α) (l : DoublyLinkedList α) :
    Except Fault (Option α) :=
  match l.head with
  | none => .ok none
  | some h => (readNode s h).map (fun n => some n.data)

/-- Embedding of `DoublyLinkedList::back`. -/
def DoublyLinkedList.back (s : Heap α) (l : DoublyLinkedList α) :
    Except Fault (Option α) :=
  match l.tail with
  | none => .ok none
  | some t => (readNode s t).map (fun n => some n.data)

/-- Embedding of `DoublyLinkedList::push_front`: allocate the node with
`next` at the old head, fix the old head's back link (or the tail anchor
when the list was empty), then move the head anchor. -/
def DoublyLinkedList.pushFront (s : Heap α) (l : DoublyLinkedList α)
    (a : α) : Except Fault (Heap α × DoublyLinkedList α) :=
  let addr := s.length
  let s1 := s ++ [some ⟨none, l.head, a⟩]
  match l.head with
  | none => .ok (s1, ⟨some addr, some addr, l.len + 1⟩)
  | some h => do
      let hn ← readNode s1 h
      return (s1.set h (some ⟨some addr, hn.next, hn.data⟩),
        ⟨some addr, l.tail, l.len + 1⟩)

/-- Embedding of `DoublyLinkedList::push_back`. -/
def DoublyLinkedList.pushBack (s : Heap α) (l : DoublyLinkedList α)
    (a : α) : Except Fault (Heap α × DoublyLinkedList α) :=
  let addr := s.length
  let s1 := s ++ [some ⟨l.tail, none, a⟩]
  match l.tail with
  | none => .ok (s1, ⟨some addr, some addr, l.len + 1⟩)
  | some t => do
      let tn ← readNode s1 t
      return (s1.set t (some ⟨tn.prev, some addr, tn.data⟩),
        ⟨l.head, some addr, l.len + 1⟩)

/-- Embedding of `DoublyLinkedList::pop_front`: clear the next node's back
link, advance the head anchor, decrement the length and free the node.  The
tail anchor is not touched, exactly as in the source. -/
def DoublyLinkedList.popFront (s : Heap α) (l : DoublyLinkedList α) :
    Except Fault (Option α × Heap α × DoublyLinkedList α) :=
  match l.head with
  | none => .ok (none, s, l)
  | some h => do
      let hn ← readNode s h
      let s1 ← match hn.next with
        | none => pure s
        | some nx => do
            let nxn ← readNode s nx
            pure (s.set nx (some ⟨none, nxn.next, nxn.data⟩))
      return (some hn.data, heapFree s1 h, ⟨hn.next, l.tail, l.len - 1⟩)

/-- Embedding of `DoublyLinkedList::pop_back`: mirror image of `pop_front`;
the head anchor is not touched, exactly as in the source. -/
def DoublyLinkedList.popBack (s : Heap α) (l : DoublyLinkedList α) :
    Except Fault (Option α × Heap α × DoublyLinkedList α) :=
  match l.tail with
  | none => .ok (none, s, l)
  | some t => do
      let tn ← readNode s t
      let s1 ← match tn.prev with
        | none => pure s
        | some pv => do
            let pvn ← readNode s pv
            pure (s.set pv (some ⟨pvn.prev, none, pvn.data⟩))
      return (some tn.data, heapFree s1 t, ⟨l.head, tn.prev, l.len - 1⟩)

/-- Embedding of `DoublyLinkedList::append`.  In the `Some(tail)` branch the
source links `tail.next` to `other.head`, fixes `other.head.prev`, resets
`other`'s anchors, and sums the lengths — without ever updating `self.tail`.
In the `None` branch it sets both of `self`'s anchors to `other.head` and
resets only `other.len`. -/
def DoublyLinkedList.append (s : Heap α) (l other : DoublyLinkedList α) :
    Except Fault (Heap α × DoublyLinkedList α × DoublyLinkedList α) :=
  match l.tail with
  | some t => do
      let tn ← readNode s t
      let s1 := s.set t (some ⟨tn.prev, other.head, tn.data⟩)
      let s2 ← match other.head with
        | none => pure s1
        | some h => do
            let hn ← readNode s1 h
            pure (s1.set h (some ⟨l.tail, hn.next, hn.data⟩))
      return (s2, ⟨l.head, l.tail, l.len + other.len⟩, ⟨none, none, 0⟩)
  | none =>
      .ok (s, ⟨other.head, other.head, l.len + other.len⟩,
        ⟨other.head, other.tail, 0⟩)

/-- Embedding of the forward iterator `Iter`: follow `next` links from an
address, with fuel bounding the walk. -/
def iterFrom (s : Heap α) : Nat → Option Nat → List α
  | _, none => []
  | 0, some _ => []
  | fuel + 1, some a =>
      match heapAt s a with
      | none => []
      | some n => n.data :: iterFrom s fuel n.next

/-- C1 (violated by the code): `append` fails its contract in both branches.
With A = [1] and B = [2] (heap addresses 0 and 1), the `Some` branch never
updates A's tail anchor, so A.back() still reads A's old last element 1
instead of B's last element 2.  With A empty and B = [10, 20], the `None`
branch sets A.tail to B's FIRST node and leaves B's anchors pointing at the
moved nodes, so B.front() reports 10 and iterating B still yields both
elements instead of the promised empty state. -/
theorem c1_append_breaks_tail_and_other_reset :
    (DoublyLinkedList.append
        [some ⟨none, none, 1⟩, some ⟨none, none, 2⟩]
        ⟨some 0, some 0, 1⟩ ⟨some 1, some 1, 1⟩
      = .ok ([some ⟨none, some 1, 1⟩, some ⟨some 0, none, 2⟩],
          ⟨some 0, some 0, 2⟩, ⟨none, none, 0⟩)) ∧
    (DoublyLinkedList.back [some ⟨none, some 1, 1⟩, some ⟨some 0, none, 2⟩]
        ⟨some 0, some 0, 2⟩ = .ok (some 1)) ∧
    (DoublyLinkedList.append
        [some ⟨none, some 1, 10⟩, some ⟨some 0, none, 20⟩]
        (DoublyLinkedList.new : DoublyLinkedList Nat) ⟨some 0, some 1, 2⟩
      = .ok ([some ⟨none, some 1, 10⟩, some ⟨some 0, none, 20⟩],
          ⟨some 0, some 0, 2⟩, ⟨some 0, some 1, 0⟩)) ∧
    (DoublyLinkedList.front [some ⟨none, some 1, 10⟩, some ⟨some 0, none, 20⟩]
        ⟨some 0, some 1, 0⟩ = .ok (some 10)) ∧
    (DoublyLinkedList.back [some ⟨none, some 1, 10⟩, some ⟨some 0, none, 20⟩]
        ⟨some 0, some 0, 2⟩ = .ok (some 10)) ∧
    iterFrom [some ⟨none, some 1, 10⟩, some ⟨some 0, none, 20⟩] 2 (some 0)
      = [10, 20] :=
  ⟨rfl, rfl, rfl, rfl, rfl, rfl⟩

/-- C2 (violated by the code): the anchors/length invariant breaks after
popping the last element.  push_front(5) then pop_front() returns 5 and
leaves head = none and len = 0, but the tail anchor still holds address 0,
whose node has just been freed; push_back/pop_back mirror this with a
dangling head anchor. -/
theorem c2_pop_last_leaves_dangling_anchor :
    (DoublyLinkedList.pushFront ([] : Heap Nat) DoublyLinkedList.new 5
      = .ok ([some ⟨none, none, 5⟩], ⟨some 0, some 0, 1⟩)) ∧
    (DoublyLinkedList.popFront [some ⟨none, none, 5⟩] ⟨some 0, some 0, 1⟩
      = .ok (some 5, [none], ⟨none, some 0, 0⟩)) ∧
    (DoublyLinkedList.pushBack ([] : Heap Nat) DoublyLinkedList.new 7
      = .ok ([some ⟨none, none, 7⟩], ⟨some 0, some 0, 1⟩)) ∧
    (DoublyLinkedList.popBack [some ⟨none, none, 7⟩] ⟨some 0, some 0, 1⟩
      = .ok (some 7, [none], ⟨some 0, none, 0⟩)) :=
  ⟨rfl, rfl, rfl, rfl⟩

/-! ### Chain representation of a linked list -/

/-- The chain of owned nodes after an optional predecessor address: each
listed address holds a live node whose back link is the preceding address
and whose forward link is the following one. -/
def chainFrom (s : Heap α) : Option Nat → List Nat → Bool
  | _, [] => true
  | pa, a :: rest =>
      match heapAt s a with
      | none => false
      | some n =>
          n.prev == pa && n.next == rest.head? && chainFrom s (some a) rest

/-- A heap and list value represent the node sequence at `addrs`. -/
def represents (s : Heap α) (l : DoublyLinkedList α) (addrs : List Nat) :
    Prop :=
  chainFrom s none addrs = true ∧ l.head = addrs.head? ∧
    l.tail = addrs.getLast? ∧ l.len = addrs.length ∧ addrs.Nodup

instance (s : Heap α) (l : DoublyLinkedList α) (addrs : List Nat) :
    Decidable (represents s l addrs) := by
  unfold represents
  infer_instance

theorem heapAt_lt_of_some (s : Heap α) (a : Nat) (n : Node α)
    (h : heapAt s a = some n) : a < s.length := by
  by_contra hge
  rw [heapAt, List.getD_eq_getElem?_getD, List.getElem?_eq_none (by omega)] at h
  cases h

theorem heapAt_set_self (s : Heap α) (a : Nat) (x : Option (Node α))
    (h : a < s.length) : heapAt (s.set a x) a = x := by
  unfold heapAt
  exact getD_set_self _ _ _ _ h

theorem heapAt_set_ne (s : Heap α) (a b : Nat) (x : Option (Node α))
    (h : a ≠ b) : heapAt (s.set a x) b = heapAt s b := by
  unfold heapAt
  exact getD_set_ne _ _ _ _ _ h

/-- Updating an address outside a chain does not affect it. -/
theorem chainFrom_set_not_mem (a : Nat) (x : Option (Node α)) :
    ∀ (addrs : List Nat) (s : Heap α) (pa : Option Nat), a ∉ addrs →
      chainFrom (s.set a x) pa addrs = chainFrom s pa addrs
  | [], _, _, _ => rfl
  | b :: rest, s, pa, hnm => by
      have hab : a ≠ b := fun hc => hnm (hc ▸ List.mem_cons_self b rest)
      have hAt := heapAt_set_ne s a b x hab
      have ih := chainFrom_set_not_mem a x rest s (some b)
        (fun hm => hnm (List.mem_cons_of_mem b hm))
      cases hb : heapAt s b with
      | none => simp [chainFrom, hAt, hb]
      | some n => simp [chainFrom, hAt, hb, ih]

/-! ### The modelled operations whose bodies are `todo!()` in the source -/

/-- Modelled from the spec: the body of `DoublyLinkedList::clear` is
`todo!()` in the source.  Per the spec — "release every node starting at
head, forward order, O(n); must be iterative" — walk the forward links,
freeing each node, with the list's length as the iteration budget. -/
def clearLoop (s : Heap α) : Nat → Option Nat → Except Fault (Heap α)
  | _, none => .ok s
  | 0, some _ => .error .invalidDeref
  | fuel + 1, some a =>
      match heapAt s a with
      | none => .error .invalidDeref
      | some n => clearLoop (heapFree s a) fuel n.next

/-- Modelled from the spec: `clear` releases the whole chain from the head
and resets the list to the empty state. -/
def DoublyLinkedList.clear (s : Heap α) (l : DoublyLinkedList α) :
    Except Fault (Heap α × DoublyLinkedList α) :=
  (clearLoop s l.len l.head).map (fun s2 => (s2, ⟨none, none, 0⟩))

theorem clearLoop_keeps_free (a : Nat) :
    ∀ (fuel : Nat) (cur : Option Nat) (s s2 : Heap α),
      heapAt s a = none → clearLoop s fuel cur = .ok s2 →
      heapAt s2 a = none
  | fuel, none, s, s2, hfree, h => by
      simp only [clearLoop] at h
      injection h with h
      subst h
      exact hfree
  | 0, some b, s, s2, hfree, h => by
      simp only [clearLoop] at h
      cases h
  | fuel + 1, some b, s, s2, hfree, h => by
      simp only [clearLoop] at h
      cases hb : heapAt s b with
      | none => rw [hb] at h; cases h
      | some n =>
          rw [hb] at h
          refine clearLoop_keeps_free a fuel n.next (heapFree s b) s2 ?_ h
          by_cases hab : b = a
          · subst hab
            exact heapAt_set_self s b none (heapAt_lt_of_some s b n hb)
          · rw [heapFree, heapAt_set_ne s b a none hab]
            exact hfree

theorem clearLoop_spec :
    ∀ (addrs : List Nat) (s : Heap α) (pa : Option Nat),
      chainFrom s pa addrs = true → addrs.Nodup →
      ∃ s2, clearLoop s addrs.length addrs.head? = .ok s2 ∧
        ∀ a ∈ addrs, heapAt s2 a = none
  | [], s, _, _, _ => ⟨s, rfl, by simp⟩
  | a :: rest, s, pa, hch, hnd => by
      rcases List.nodup_cons.mp hnd with ⟨hnm, hnd'⟩
      simp only [chainFrom] at hch
      cases hb : heapAt s a with
      | none => rw [hb] at hch; cases hch
      | some n =>
          rw [hb] at hch
          simp only [Bool.and_eq_true, beq_iff_eq] at hch
          rcases hch with ⟨⟨_, hnext⟩, hch2⟩
          have hch3 : chainFrom (heapFree s a) (some a) rest = true := by
            rw [heapFree, chainFrom_set_not_mem a none rest s (some a) hnm]
            exact hch2
          rcases clearLoop_spec rest (heapFree s a) (some a) hch3 hnd' with
            ⟨s2, hloop, hfreed⟩
          refine ⟨s2, ?_, ?_⟩
          · simp only [List.length_cons, List.head?_cons, clearLoop, hb]
            rw [hnext]
            exact hloop
          · intro b hbmem
            rcases List.mem_cons.mp hbmem with hba | hbr
            · subst hba
              refine clearLoop_keeps_free b rest.length rest.head? (heapFree s b)
                s2 ?_ hloop
              exact heapAt_set_self s b none (heapAt_lt_of_some s b n hb)
            · exact hfreed b hbr

/-- C8: on every represented list, `clear` completes normally, frees every
node of the chain, and resets the list to the empty state, after which the
length is 0, `is_empty` holds and `front`/`back` report absence. -/
theorem c8_clear_resets_to_empty (s : Heap α) (l : DoublyLinkedList α)
    (addrs : List Nat) (hrep : represents s l addrs) :
    ∃ s2, DoublyLinkedList.clear s l = .ok (s2, ⟨none, none, 0⟩) ∧
      (∀ a ∈ addrs, heapAt s2 a = none) ∧
      (⟨none, none, 0⟩ : DoublyLinkedList α).length = 0 ∧
      (⟨none, none, 0⟩ : DoublyLinkedList α).isEmpty = true ∧
      DoublyLinkedList.front s2 (⟨none, none, 0⟩ : DoublyLinkedList α)
        = .ok none ∧
      DoublyLinkedList.back s2 (⟨none, none, 0⟩ : DoublyLinkedList α)
        = .ok none := by
  rcases hrep with ⟨hch, hhead, htail, hlen, hnd⟩
  rcases clearLoop_spec addrs s none hch hnd with ⟨s2, hloop, hfreed⟩
  refine ⟨s2, ?_, hfreed, rfl, rfl, rfl, rfl⟩
  unfold DoublyLinkedList.clear
  rw [hlen, hhead, hloop]
  rfl

/-- A concrete two-node list for the C8 witness. -/
def heapC8 : Heap Nat := [some ⟨none, some 1, 3⟩, some ⟨some 0, none, 4⟩]

/-- Witness for C8 on the concrete two-node list [3, 4]. -/
theorem c8_witness :
    ∃ s2, DoublyLinkedList.clear heapC8 ⟨some 0, some 1, 2⟩
        = .ok (s2, ⟨none, none, 0⟩) ∧
      (∀ a ∈ [0, 1], heapAt s2 a = none) ∧
      (⟨none, none, 0⟩ : DoublyLinkedList Nat).length = 0 ∧
      (⟨none, none, 0⟩ : DoublyLinkedList Nat).isEmpty = true ∧
      DoublyLinkedList.front s2 (⟨none, none, 0⟩ : DoublyLinkedList Nat)
        = .ok none ∧
      DoublyLinkedList.back s2 (⟨none, none, 0⟩ : DoublyLinkedList Nat)
        = .ok none :=
  c8_clear_resets_to_empty heapC8 ⟨some 0, some 1, 2⟩ [0, 1] (by decide)

/-- The locate loop of `split_off`: walk forward links from an address. -/
def walkN (s : Heap α) : Nat → Option Nat → Except Fault (Option Nat)
  | 0, cur => .ok cur
  | _ + 1, none => .error .invalidDeref
  | fuel + 1, some a =>
      match heapAt s a with
      | none => .error .invalidDeref
      | some nd => walkN s fuel nd.next

/-- Modelled from the spec: the body of `DoublyLinkedList::split_off` is
`todo!()` in the source.  Per the spec and the doc comment — fail loudly
(here an `outOfRange` fault) when the index exceeds the length; index 0
moves everything into the returned list; index = len returns a fresh empty
list; otherwise walk to the boundary in O(n), cut the forward link of the
node before it and the back link of the node at it, and split the anchors
and lengths. -/
def DoublyLinkedList.splitOff (s : Heap α) (l : DoublyLinkedList α)
    (n : Nat) :
    Except Fault (Heap α × DoublyLinkedList α × DoublyLinkedList α) :=
  if l.len < n then .error .outOfRange
  else if n = 0 then .ok (s, ⟨none, none, 0⟩, l)
  else if n = l.len then .ok (s, l, ⟨none, none, 0⟩)
  else
    match walkN s (n - 1) l.head with
    | .error e => .error e
    | .ok none => .error .invalidDeref
    | .ok (some pt) =>
        match heapAt s pt with
        | none => .error .invalidDeref
        | some ptn =>
            match ptn.next with
            | none => .error .invalidDeref
            | some sh =>
                match heapAt s sh with
                | none => .error .invalidDeref
                | some shn =>
                    .ok ((s.set pt (some ⟨ptn.prev, none, ptn.data⟩)).set sh
                        (some ⟨none, shn.next, shn.data⟩),
                      ⟨l.head, some pt, n⟩, ⟨some sh, l.tail, l.len - n⟩)

/-- Cutting a represented chain between `pt` and `sh`: the locate walk finds
`pt`, and after clearing `pt.next` and `sh.prev` the two halves are chains
again. -/
theorem chainCut :
    ∀ (A : List Nat) (s : Heap α) (pa : Option Nat) (pt sh : Nat)
      (B : List Nat),
      chainFrom s pa (A ++ pt :: sh :: B) = true →
      (A ++ pt :: sh :: B).Nodup →
      ∃ ptn shn : Node α,
        heapAt s pt = some ptn ∧ ptn.next = some sh ∧
        heapAt s sh = some shn ∧
        walkN s A.length (A ++ pt :: sh :: B).head? = .ok (some pt) ∧
        chainFrom ((s.set pt (some ⟨ptn.prev, none, ptn.data⟩)).set sh
            (some ⟨none, shn.next, shn.data⟩)) pa (A ++ [pt]) = true ∧
        chainFrom ((s.set pt (some ⟨ptn.prev, none, ptn.data⟩)).set sh
            (some ⟨none, shn.next, shn.data⟩)) none (sh :: B) = true
  | [], s, pa, pt, sh, B, hch, hnd => by
      simp only [List.nil_append] at hch hnd ⊢
      rcases List.nodup_cons.mp hnd with ⟨hptnm, hnd2⟩
      rcases List.nodup_cons.mp hnd2 with ⟨hshnm, _⟩
      have hptsh : pt ≠ sh := fun hc => hptnm (hc ▸ List.mem_cons_self sh B)
      simp only [chainFrom] at hch
      cases hpt : heapAt s pt with
      | none => rw [hpt] at hch; cases hch
      | some ptn =>
          rw [hpt] at hch
          simp only [Bool.and_eq_true, beq_iff_eq, List.head?_cons] at hch
          rcases hch with ⟨⟨hprev, hnext⟩, hch2⟩
          cases hsh : heapAt s sh with
          | none => rw [hsh] at hch2; simp only [chainFrom, hsh] at hch2; cases hch2
          | some shn =>
              simp only [chainFrom, hsh, Bool.and_eq_true, beq_iff_eq] at hch2
              rcases hch2 with ⟨⟨hshprev, hshnext⟩, hch3⟩
              have hptlt := heapAt_lt_of_some s pt ptn hpt
              have hshlt := heapAt_lt_of_some s sh shn hsh
              refine ⟨ptn, shn, rfl, hnext, rfl, rfl, ?_, ?_⟩
              · have hAt1 : heapAt ((s.set pt (some ⟨ptn.prev, none, ptn.data⟩)).set sh
                    (some ⟨none, shn.next, shn.data⟩)) pt
                    = some ⟨ptn.prev, none, ptn.data⟩ := by
                  rw [heapAt_set_ne _ _ _ _ (Ne.symm hptsh),
                    heapAt_set_self _ _ _ hptlt]
                simp only [chainFrom, hAt1]
                simp [hprev]
              · have hAt2 : heapAt ((s.set pt (some ⟨ptn.prev, none, ptn.data⟩)).set sh
                    (some ⟨none, shn.next, shn.data⟩)) sh
                    = some ⟨none, shn.next, shn.data⟩ := by
                  have : sh < (s.set pt (some ⟨ptn.prev, none, ptn.data⟩)).length := by
                    rw [List.length_set]; exact hshlt
                  rw [heapAt_set_self _ _ _ this]
                have hrest : chainFrom ((s.set pt
                    (some ⟨ptn.prev, none, ptn.data⟩)).set sh
                    (some ⟨none, shn.next, shn.data⟩)) (some sh) B = true := by
                  rw [chainFrom_set_not_mem sh _ B _ (some sh) hshnm,
                    chainFrom_set_not_mem pt _ B s (some sh)
                      (fun hm => hptnm (List.mem_cons_of_mem sh hm))]
                  exact hch3
                simp only [chainFrom, hAt2, Bool.and_eq_true, beq_iff_eq]
                exact ⟨⟨trivial, hshnext⟩, hrest⟩
  | a :: A, s, pa, pt, sh, B, hch, hnd => by
      rw [List.cons_append] at hnd
      rcases List.nodup_cons.mp hnd with ⟨hanm, hnd'⟩
      simp only [List.cons_append, chainFrom] at hch
      cases ha : heapAt s a with
      | none => rw [ha] at hch; cases hch
      | some na =>
          rw [ha] at hch
          simp only [Bool.and_eq_true, beq_iff_eq] at hch
          rcases hch with ⟨⟨haprev, hanext⟩, hch2⟩
          rcases chainCut A s (some a) pt sh B hch2 hnd' with
            ⟨ptn, shn, hpt, hnext, hsh, hwalk, hchain1, hchain2⟩
          have hapt : a ≠ pt := by
            intro hc
            subst hc
            exact hanm (List.mem_append.mpr (Or.inr (List.mem_cons_self a _)))
          have hash2 : a ≠ sh := by
            intro hc
            subst hc
            exact hanm (List.mem_append.mpr
              (Or.inr (List.mem_cons_of_mem pt (List.mem_cons_self a B))))
          refine ⟨ptn, shn, hpt, hnext, hsh, ?_, ?_, hchain2⟩
          · simp only [List.cons_append, List.length_cons, List.head?_cons,
              walkN, ha]
            rw [hanext]
            exact hwalk
          · have hAta : heapAt ((s.set pt (some ⟨ptn.prev, none, ptn.data⟩)).set sh
                (some ⟨none, shn.next, shn.data⟩)) a = some na := by
              rw [heapAt_set_ne _ _ _ _ (Ne.symm hash2),
                heapAt_set_ne _ _ _ _ (Ne.symm hapt)]
              exact ha
            have hheads : (A ++ pt :: sh :: B).head? = (A ++ [pt]).head? := by
              cases A <;> rfl
            simp only [List.cons_append, chainFrom, hAta, Bool.and_eq_true,
              beq_iff_eq]
            exact ⟨⟨haprev, by rw [hanext]; exact hheads⟩, hchain1⟩

/-- C7 (spec-modelled): `split_off` faults with the out-of-range condition
exactly when the index exceeds the length; for every index up to the length
it succeeds and partitions the represented list into the retained address
prefix of length `n` and the returned suffix, every node payload untouched
(index 0 empties self handing everything over, index = len returns a fresh
empty list). -/
theorem c7_split_off_partitions (s : Heap α) (l : DoublyLinkedList α)
    (addrs : List Nat) (n : Nat) (hrep : represents s l addrs) :
    (l.len < n → DoublyLinkedList.splitOff s l n = .error .outOfRange) ∧
    (n ≤ l.len → ∃ s2 l1 l2,
      DoublyLinkedList.splitOff s l n = .ok (s2, l1, l2) ∧
      represents s2 l1 (addrs.take n) ∧
      represents s2 l2 (addrs.drop n) ∧
      ∀ a ∈ addrs, (heapAt s2 a).map Node.data
        = (heapAt s a).map Node.data) := by
  rcases hrep with ⟨hch, hhead, htail, hlen, hnd⟩
  constructor
  · intro hgt
    unfold DoublyLinkedList.splitOff
    rw [if_pos hgt]
  · intro hle
    by_cases h0 : n = 0
    · subst h0
      refine ⟨s, ⟨none, none, 0⟩, l, ?_, ?_, ?_, fun a _ => rfl⟩
      · unfold DoublyLinkedList.splitOff
        rw [if_neg (by omega), if_pos rfl]
      · rw [List.take_zero]
        exact ⟨rfl, rfl, rfl, rfl, List.nodup_nil⟩
      · rw [List.drop_zero]
        exact ⟨hch, hhead, htail, hlen, hnd⟩
    · by_cases hn : n = l.len
      · refine ⟨s, l, ⟨none, none, 0⟩, ?_, ?_, ?_, fun a _ => rfl⟩
        · unfold DoublyLinkedList.splitOff
          rw [if_neg (by omega), if_neg h0, if_pos hn]
        · rw [hn, hlen, List.take_length]
          exact ⟨hch, hhead, htail, hlen, hnd⟩
        · rw [hn, hlen, List.drop_length]
          exact ⟨rfl, rfl, rfl, rfl, List.nodup_nil⟩
      · have hnlt : n < addrs.length := by omega
        have hposn : 0 < n := Nat.pos_of_ne_zero h0
        have hn1 : n - 1 < addrs.length := by omega
        have hn1s : (n - 1) + 1 = n := by omega
        have hdrop1 : addrs.drop (n - 1)
            = addrs.get ⟨n - 1, hn1⟩ :: addrs.drop n := by
          rw [List.drop_eq_getElem_cons hn1, hn1s]
          rfl
        have hdrop2 : addrs.drop n
            = addrs.get ⟨n, hnlt⟩ :: addrs.drop (n + 1) := by
          rw [List.drop_eq_getElem_cons hnlt]
          rfl
        have hsplitA : addrs = addrs.take (n - 1)
            ++ addrs.get ⟨n - 1, hn1⟩ :: addrs.get ⟨n, hnlt⟩
              :: addrs.drop (n + 1) := by
          conv_lhs => rw [← List.take_append_drop (n - 1) addrs]
          rw [hdrop1, hdrop2]
        have hndA := hsplitA ▸ hnd
        have hchA : chainFrom s none (addrs.take (n - 1)
            ++ addrs.get ⟨n - 1, hn1⟩ :: addrs.get ⟨n, hnlt⟩
              :: addrs.drop (n + 1)) = true := by
          rw [← hsplitA]
          exact hch
        rcases chainCut (addrs.take (n - 1)) s none _ _ (addrs.drop (n + 1))
          hchA hndA with ⟨ptn, shn, hAtpt, hptnext, hAtsh, hwalk, hchain1, hchain2⟩
        have hlenT : (addrs.take (n - 1)).length = n - 1 := by
          rw [List.length_take]
          omega
        have hwalk2 : walkN s (n - 1) l.head
            = .ok (some (addrs.get ⟨n - 1, hn1⟩)) := by
          rw [hhead]
          rw [show addrs.head? = (addrs.take (n - 1)
            ++ addrs.get ⟨n - 1, hn1⟩ :: addrs.get ⟨n, hnlt⟩
              :: addrs.drop (n + 1)).head? from by rw [← hsplitA]]
          rw [hlenT] at hwalk
          exact hwalk
        have hptlt := heapAt_lt_of_some s _ ptn hAtpt
        have hshlt := heapAt_lt_of_some s _ shn hAtsh
        have hptsh : addrs.get ⟨n - 1, hn1⟩ ≠ addrs.get ⟨n, hnlt⟩ := by
          intro hc
          have hinj := List.nodup_iff_injective_get.mp hnd hc
          have hval := congrArg Fin.val hinj
          simp only at hval
          omega
        refine ⟨(s.set (addrs.get ⟨n - 1, hn1⟩)
            (some ⟨ptn.prev, none, ptn.data⟩)).set (addrs.get ⟨n, hnlt⟩)
            (some ⟨none, shn.next, shn.data⟩),
          ⟨l.head, some (addrs.get ⟨n - 1, hn1⟩), n⟩,
          ⟨some (addrs.get ⟨n, hnlt⟩), l.tail, l.len - n⟩, ?_, ?_, ?_, ?_⟩
        · unfold DoublyLinkedList.splitOff
          rw [if_neg (by omega), if_neg h0, if_neg hn]
          simp only [hwalk2, hAtpt, hptnext, hAtsh]
        · have hgetn1 : addrs[n - 1]? = some (addrs.get ⟨n - 1, hn1⟩) := by
            rw [List.getElem?_eq_getElem hn1]
            rfl
          have htake : addrs.take n
              = addrs.take (n - 1) ++ [addrs.get ⟨n - 1, hn1⟩] := by
            conv_lhs => rw [show n = (n - 1) + 1 from by omega]
            rw [List.take_succ, hgetn1]
            rfl
          refine ⟨?_, ?_, ?_, ?_, ?_⟩
          · rw [htake]
            exact hchain1
          · dsimp only
            rw [hhead, List.head?_take, if_neg h0]
          · dsimp only
            rw [htake, List.getLast?_concat]
          · dsimp only
            rw [List.length_take]
            omega
          · exact List.Nodup.sublist (List.take_sublist n addrs) hnd
        · refine ⟨?_, ?_, ?_, ?_, ?_⟩
          · rw [hdrop2]
            exact hchain2
          · dsimp only
            rw [hdrop2]
            rfl
          · dsimp only
            rw [htail]
            rw [List.getLast?_eq_getElem?]
            rw [List.getLast?_eq_getElem?]
            rw [List.getElem?_drop, List.length_drop]
            congr 1
            omega
          · dsimp only
            rw [List.length_drop, hlen]
          · exact List.Nodup.sublist (List.drop_sublist n addrs) hnd
        · intro a hamem
          by_cases hca : a = addrs.get ⟨n, hnlt⟩
          · subst hca
            rw [heapAt_set_self _ _ _ (by rw [List.length_set]; exact hshlt),
              hAtsh]
            rfl
          · by_cases hcb : a = addrs.get ⟨n - 1, hn1⟩
            · subst hcb
              rw [heapAt_set_ne _ _ _ _ (Ne.symm hptsh),
                heapAt_set_self _ _ _ hptlt, hAtpt]
              rfl
            · rw [heapAt_set_ne _ _ _ _ (fun hc => hca hc.symm),
                heapAt_set_ne _ _ _ _ (fun hc => hcb hc.symm)]

/-- Witness for C7: splitting the concrete two-node list [3, 4] at index 1. -/
theorem c7_witness :
    1 ≤ (⟨some 0, some 1, 2⟩ : DoublyLinkedList Nat).len ∧
    ∃ s2 l1 l2,
      DoublyLinkedList.splitOff heapC8 ⟨some 0, some 1, 2⟩ 1
        = .ok (s2, l1, l2) ∧
      represents s2 l1 ([0, 1].take 1) ∧
      represents s2 l2 ([0, 1].drop 1) ∧
      ∀ a ∈ [0, 1], (heapAt s2 a).map Node.data
        = (heapAt heapC8 a).map Node.data :=
  ⟨by decide,
    (c7_split_off_partitions heapC8 ⟨some 0, some 1, 2⟩ [0, 1] 1
      (by decide)).2 (by decide)⟩
